import Mathlib

/-!
Verification of the download-orchestration core of `takeout.py`
(Google Takeout Bulk Downloader, version 3.1.0).

The Python source is shallowly embedded:
* Python `str` values that are inspected character-by-character are
  modelled as `List Char`; strings used only as opaque map keys stay
  `String`.
* The filesystem is modelled as finite-support maps `String → Option Nat`
  sending a filename to the byte size of the file stored there (`none`
  means the file is absent).
* `requests` responses are modelled by the `HttpResponse` structure:
  status code, final URL (after redirects), content-type header, the
  parsed `content-length` header, and the list of body chunks delivered
  by `iter_content` (bytes as naturals).
* Fallible operations return the same `(success₍bool₎, message₍str₎)`
  pairs as the source.
-/

namespace Takeout

/-- Python truthiness of an optional integer (`None` and `0` are falsy),
as used in `if expected and ...` / `if not expected:` in `takeout.py`. -/
def optTruthy : Option Nat → Bool
  | none => false
  | some n => n != 0

/-- Substring test: does `sub` occur contiguously inside `s`?
Models Python's `sub in s` on strings. -/
def startsWithSeg : List Char → List Char → Bool
  | _, [] => true
  | [], _ :: _ => false
  | c :: cs, d :: ds => c == d && startsWithSeg cs ds

/-- Models Python `sub in s` (contiguous substring membership). -/
def containsSeg : List Char → List Char → Bool
  | [], sub => sub.isEmpty
  | c :: cs, sub => startsWithSeg (c :: cs) sub || containsSeg cs sub

/-- `sub in s` on `String`s. -/
def strContains (s sub : String) : Bool := containsSeg s.data sub.data

/-- The decimal digit character for `d` (`0 ↦ '0'`, …, `9 ↦ '9'`). -/
def digitChar (d : Nat) : Char := Char.ofNat (48 + d)

/-- Fuel-driven decimal printer: `decReprAux fuel n acc` prepends the
decimal digits of `n` to `acc` (valid when `n < fuel`). -/
def decReprAux : Nat → Nat → List Char → List Char
  | 0, _, acc => acc
  | fuel + 1, n, acc =>
    if n < 10 then digitChar n :: acc
    else decReprAux fuel (n / 10) (digitChar (n % 10) :: acc)

/-- Decimal representation of a natural number, as Python's `str(n)`. -/
def decRepr (n : Nat) : List Char := decReprAux (n + 1) n []

/-- Python's `f"{n:03d}"`: the decimal representation of `n`,
left-padded with `'0'` to a minimum width of 3. -/
def pad3 (n : Nat) : List Char :=
  List.replicate (3 - (decRepr n).length) '0' ++ decRepr n

/-- Reads a digit string back as a number (`int("003") = 3`). -/
def digitsToNat (cs : List Char) : Nat :=
  cs.foldl (fun a c => a * 10 + (c.toNat - 48)) 0

/-- Python regex `\d` (ASCII decimal digit). -/
def isDigitC (c : Char) : Bool := c.isDigit

/-- Python regex `\w` (word character). -/
def isWordC (c : Char) : Bool := c.isAlphanum || c == '_'

/-! ## URL sequence model: `extract_url_parts` (takeout.py lines 101-129)

The source matches the path against
`(.*takeout-\d{8}T\d{6}Z-\d+-)(\d{3})(\.\w+)$`, falling back to
`(.*takeout-[^-]+-\d+-)(\d{3})(\.\w+)$`.  The greedy `.*` makes the
regex engine take the *rightmost* position at which the rigid rest of
the pattern completes at the end of the string; at a fixed position the
rest of the pattern is deterministic (each `\d+`/`[^-]+` run is bounded
by a following literal that cannot belong to the run, so backtracking
cannot produce a second decomposition).  We model this by a
deterministic matcher `pat1Parse`/`pat2Parse` applied at every start
position, scanned right-to-left by `scanDown`. -/

/-- `url.split('?', 1)`: split at the first occurrence of `sep`. -/
def splitFirst (sep : Char) : List Char → Option (List Char × List Char)
  | [] => none
  | c :: cs =>
    if c = sep then some ([], cs)
    else
      match splitFirst sep cs with
      | some (a, b) => some (c :: a, b)
      | none => none

/-- Split a URL into path and query string
(`url.split('?', 1)` when `'?' in url`, else `(url, '')`). -/
def splitQuery (url : List Char) : List Char × List Char :=
  match splitFirst '?' url with
  | some (p, q) => (p, q)
  | none => (url, [])

/-- The literal `takeout-`. -/
def litTakeout : List Char := ['t', 'a', 'k', 'e', 'o', 'u', 't', '-']

/-- Matches `\d{8}T\d{6}Z-` at the front of `t`; returns the remainder. -/
def pat1Head (t : List Char) : Option (List Char) :=
  if (t.take 8).length = 8 ∧ (t.take 8).all isDigitC then
    match t.drop 8 with
    | [] => none
    | c :: t1 =>
      if c = 'T' then
        if (t1.take 6).length = 6 ∧ (t1.take 6).all isDigitC then
          match t1.drop 6 with
          | c1 :: c2 :: t2 => if c1 = 'Z' ∧ c2 = '-' then some t2 else none
          | _ => none
        else none
      else none
  else none

/-- Matches `\d+-(\d{3})(\.\w+)$` against all of `t`.  Returns the number
of characters consumed by `\d+-` (which belong to the regex group 1),
the numeric value of the `\d{3}` capture and the `\.\w+` capture. -/
def patTail (t : List Char) : Option (Nat × Nat × List Char) :=
  if (t.takeWhile isDigitC).isEmpty then none
  else
    match t.dropWhile isDigitC with
    | [] => none
    | c :: r1 =>
      if c = '-' then
        if (r1.take 3).length = 3 ∧ (r1.take 3).all isDigitC then
          match r1.drop 3 with
          | [] => none
          | d :: w =>
            if d = '.' then
              if (!w.isEmpty) && w.all isWordC then
                some ((t.takeWhile isDigitC).length + 1,
                  (digitsToNat (r1.take 3), '.' :: w))
              else none
            else none
        else none
      else none

/-- Deterministic matcher for `takeout-\d{8}T\d{6}Z-\d+-(\d{3})(\.\w+)$`
anchored at the front of `t` and at the end of the string.  On success
returns the length of the group-1 part of `t`, the archive index, and
the extension. -/
def pat1Parse (t : List Char) : Option (Nat × Nat × List Char) :=
  if t.take 8 = litTakeout then
    match pat1Head (t.drop 8) with
    | some t2 =>
      match patTail t2 with
      | some (k, n, ext) => some (25 + k, (n, ext))
      | none => none
    | none => none
  else none

/-- Deterministic matcher for the fallback pattern
`takeout-[^-]+-\d+-(\d{3})(\.\w+)$`. -/
def pat2Parse (t : List Char) : Option (Nat × Nat × List Char) :=
  if t.take 8 = litTakeout then
    if ((t.drop 8).takeWhile (fun c => c != '-')).isEmpty then none
    else
      match (t.drop 8).dropWhile (fun c => c != '-') with
      | [] => none
      | c :: r1 =>
        if c = '-' then
          match patTail r1 with
          | some (k, n, ext) =>
            some (8 + ((t.drop 8).takeWhile (fun c => c != '-')).length + 1 + k,
              (n, ext))
          | none => none
        else none
  else none

/-- Right-to-left scan: the greedy `.*` of `re.search` picks the largest
start position at which the rest of the pattern matches. -/
def scanDown (f : Nat → Option α) : Nat → Option (Nat × α)
  | 0 => (f 0).map (fun r => (0, r))
  | p + 1 =>
    match f (p + 1) with
    | some r => some (p + 1, r)
    | none => scanDown f p

/-- The parsed template: `(base_url_with_batch, file_num, extension,
query_string)` of `extract_url_parts`. -/
structure UrlParts where
  base : List Char
  fileNum : Nat
  ext : List Char
  query : List Char
deriving DecidableEq, Repr

/-- `extract_url_parts` (takeout.py lines 101-129), `none` modelling the
`(None, None, None, '')` failure return. -/
def extract_url_parts (url : List Char) : Option UrlParts :=
  match scanDown (fun p => pat1Parse ((splitQuery url).1.drop p))
      (splitQuery url).1.length with
  | some (p, k, n, ext) =>
    some ⟨(splitQuery url).1.take (p + k), n, ext, (splitQuery url).2⟩
  | none =>
    match scanDown (fun p => pat2Parse ((splitQuery url).1.drop p))
        (splitQuery url).1.length with
    | some (p, k, n, ext) =>
      some ⟨(splitQuery url).1.take (p + k), n, ext, (splitQuery url).2⟩
    | none => none

/-- Everything after the last `'/'` (Python `base.split('/')[-1]`). -/
def lastSlashSeg (l : List Char) : List Char :=
  (l.reverse.takeWhile (fun c => c != '/')).reverse

/-- `TakeoutDownloader.get_url` (takeout.py lines 222-227):
`f"{base}{num:03d}{ext}"` plus `?query` when the query is nonempty. -/
def get_url (parts : UrlParts) (num : Nat) : List Char :=
  parts.base ++ pad3 num ++ parts.ext ++
    (if parts.query.isEmpty then [] else '?' :: parts.query)

/-- `TakeoutDownloader.get_filename` (takeout.py lines 218-220). -/
def get_filename (parts : UrlParts) (num : Nat) : List Char :=
  lastSlashSeg parts.base ++ pad3 num ++ parts.ext

/-! ## Size history store (takeout.py lines 64-94)

`SizeHistory.load` reads `.takeout_sizes.json`: a missing file is left
alone (the map was initialised empty), and any exception while opening
or JSON-decoding the file is swallowed by the bare `except`, resetting
the map to `{}`.  The possible states of the persisted file are
enumerated by `HistFileState`. -/

/-- The state the persisted size-history file can be in. -/
inductive HistFileState where
  /-- `self.path.exists()` is false. -/
  | absent
  /-- the file exists but `open` or reading raises. -/
  | unreadable
  /-- the file reads but `json.load` raises (non-JSON content). -/
  | corrupt
  /-- the file holds a well-formed JSON map of filename sizes. -/
  | wellFormed (m : List (String × Nat))
deriving DecidableEq

/-- `SizeHistory.load` (takeout.py lines 72-79): result of
`__init__`-then-`load` as a function of the persisted file's state. -/
def SizeHistory_load : HistFileState → List (String × Nat)
  | .absent => []
  | .unreadable => []
  | .corrupt => []
  | .wellFormed m => m

/-- `size > 0 and (not expected or size >= expected)`: the
looks-complete test used both by the skip-if-exists check of
`download_file` (lines 282-285) and by the batch construction in `run`
(lines 423-427), for a file of size `d` with recorded size `e`. -/
def looksComplete (d e : Option Nat) : Bool :=
  match d with
  | none => false
  | some size => decide (0 < size) && (!optTruthy e || decide (e.getD 0 ≤ size))

/-- Does a file of size `d` (`none` = missing) with recorded expected
size `e` need downloading: missing, zero-length, or smaller than a
truthy recorded expected size?  Mirrors the delete/mark conditions of
`cleanup_bad_files`. -/
def needsDE (d e : Option Nat) : Bool :=
  match d with
  | none => true
  | some size => decide (size = 0) || (optTruthy e && decide (size < e.getD 0))

/-- Does a `cleanup_bad_files` iteration backfill a size-history record
for a file of size `d` with recorded size `e`?  (`if not expected:
record_size` on the not-deleted path.) -/
def backfillCond (d e : Option Nat) : Bool :=
  match d with
  | none => false
  | some s => decide (0 < s) && !optTruthy e

/-- The disk contents at a scanned file after its `cleanup_bad_files`
iteration, as a function of its prior size `d` and recorded size `e`. -/
def postDisk (d e : Option Nat) : Option Nat :=
  match d with
  | none => none
  | some size =>
    if size = 0 then none
    else if optTruthy e && decide (size < e.getD 0) then none
    else some size

/-- The size-history entry of a scanned file after its
`cleanup_bad_files` iteration. -/
def postSizes (d e : Option Nat) : Option Nat :=
  match d with
  | none => e
  | some size =>
    if size = 0 then e
    else if optTruthy e && decide (size < e.getD 0) then e
    else if optTruthy e then e
    else some size

/-! ## Scanning pass: `cleanup_bad_files` (takeout.py lines 233-271)

The on-disk state is a map `disk : String → Option Nat` from filename
to size, and the in-memory size history is `sizes : String → Option Nat`
(`get_expected_size`).  The pass iterates `num` over
`range(1, file_count + 1)`, with `g num` the filename for index `num`
(`get_filepath`). -/

/-- Mutable state of the scanning pass. -/
structure ScanState where
  disk : String → Option Nat
  sizes : String → Option Nat
  firstMissing : Option Nat

/-- `if first_missing is None: first_missing = num`. -/
def markMissing (fm : Option Nat) (num : Nat) : Option Nat :=
  match fm with
  | none => some num
  | some k => some k

/-- One loop iteration of `cleanup_bad_files` for index `num`. -/
def cleanupStep (g : Nat → String) (st : ScanState) (num : Nat) : ScanState :=
  match st.disk (g num) with
  | none =>
    -- `if not filepath.exists(): ... continue`
    { st with firstMissing := markMissing st.firstMissing num }
  | some size =>
    if size = 0 then
      -- `Deleting zero-sized`
      { disk := fun f => if f = g num then none else st.disk f
        sizes := st.sizes
        firstMissing := markMissing st.firstMissing num }
    else if optTruthy (st.sizes (g num)) && decide (size < (st.sizes (g num)).getD 0) then
      -- `if expected and size < expected:` — `Deleting incomplete`
      { disk := fun f => if f = g num then none else st.disk f
        sizes := st.sizes
        firstMissing := markMissing st.firstMissing num }
    else if optTruthy (st.sizes (g num)) then st
    else
      -- `if not expected: record_size(filepath.name, size)`
      { st with sizes := fun f => if f = g num then some size else st.sizes f }

/-- Filesystem-visible state: local files plus the size history. -/
structure FsState where
  disk : String → Option Nat
  sizes : String → Option Nat

/-- `TakeoutDownloader.cleanup_bad_files` (takeout.py lines 233-271):
returns the updated state and the first file number needing download. -/
def cleanup_bad_files (g : Nat → String) (fileCount : Nat) (fs : FsState) :
    FsState × Nat :=
  let st := (List.range' 1 fileCount).foldl (cleanupStep g) ⟨fs.disk, fs.sizes, none⟩
  (⟨st.disk, st.sizes⟩, st.firstMissing.getD 1)

/-- The `to_download` list built in `run` (takeout.py lines 420-428):
indices from `first_needed` to `file_count` whose file is not present
with nonzero size and plausible recorded size. -/
def to_download (g : Nat → String) (fs : FsState) (firstNeeded fileCount : Nat) :
    List Nat :=
  (List.range' firstNeeded (fileCount + 1 - firstNeeded)).filter fun num =>
    !looksComplete (fs.disk (g num)) (fs.sizes (g num))

/-- One round of the `while` loop in `run` up to batch construction
(takeout.py lines 415-428): clean up bad files, then build the list of
indices to (re)try.  This is exactly what happens after an auth retry. -/
def rescanRetryList (g : Nat → String) (fileCount : Nat) (fs : FsState) :
    List Nat :=
  let r := cleanup_bad_files g fileCount fs
  to_download g r.1 r.2 fileCount

/-- Does index `num` need downloading in state `fs`? -/
def needsDownload (g : Nat → String) (fs : FsState) (num : Nat) : Bool :=
  needsDE (fs.disk (g num)) (fs.sizes (g num))

/-! ## Fetch worker: `download_file` (takeout.py lines 273-357) -/

/-- A `requests` streamed response, as observed by `download_file`. -/
structure HttpResponse where
  /-- `response.status_code`. -/
  statusCode : Nat
  /-- `response.url` (the final URL after redirects). -/
  url : String
  /-- `response.headers.get('content-type', '')`. -/
  contentType : String
  /-- `int(response.headers.get('content-length', 0))`. -/
  contentLength : Nat
  /-- the body chunks yielded by `response.iter_content`. -/
  chunks : List (List Nat)

/-- State touched by one `download_file` call: the final-name files, the
size history, and the size of the temporary `.downloading` file for the
current target (`none` when no temp file exists). -/
structure FetchState where
  disk : String → Option Nat
  sizes : String → Option Nat
  temp : Option Nat

/-- `chunk[:2] != b'PK'` (the ZIP local-file-header magic). -/
def missesPK (c : List Nat) : Bool := !(c.take 2 == [80, 75])

/-- The chunk-writing loop of `download_file` (takeout.py lines 324-340)
with the stop flag false: skips empty chunks, aborts (`none`) when the
first non-empty chunk fails the `PK` magic check, otherwise returns the
total number of bytes written. -/
def streamBody : List (List Nat) → Nat → Option Nat
  | [], downloaded => some downloaded
  | c :: rest, downloaded =>
    if c.length = 0 then streamBody rest downloaded
    else if downloaded = 0 && missesPK c then none
    else streamBody rest (downloaded + c.length)

/-- `TakeoutDownloader.download_file` (takeout.py lines 273-357) for
target filename `fname`, given the response the single `requests.get`
of the call would produce and the value of the run-wide stop flag.
Returns the `(success, message)` pair and the resulting state. -/
def download_file (fs : FetchState) (fname : String) (resp : HttpResponse)
    (shouldStop : Bool) : (Bool × String) × FetchState :=
  -- skip if already exists and looks complete (lines 281-286)
  if looksComplete (fs.disk fname) (fs.sizes fname) then
    ((true, "already exists"), fs)
  -- auth failure via status (lines 300-301)
  else if resp.statusCode = 401 ∨ resp.statusCode = 403 then
    ((false, "AUTH_FAILED"), fs)
  -- redirect to login (lines 304-305)
  else if resp.statusCode = 302 ∨ strContains resp.url "accounts.google" then
    ((false, "AUTH_FAILED"), fs)
  -- `raise_for_status` + the `HTTPError` handler (lines 307, 352-355)
  else if 400 ≤ resp.statusCode then
    if resp.statusCode = 404 then ((false, "NOT_FOUND"), fs)
    else ((false, "HTTP error"), fs)
  -- content type check (lines 310-312)
  else if strContains resp.contentType "text/html" then
    ((false, "AUTH_FAILED"), fs)
  -- content length check (lines 315-317)
  else if resp.contentLength < 1000 then
    ((false, "AUTH_FAILED"), fs)
  -- stop flag checked at the top of each chunk iteration (lines 325-327)
  else if shouldStop ∧ resp.chunks ≠ [] then
    ((false, "stopped"), { fs with temp := none })
  else
    match streamBody resp.chunks 0 with
    | none =>
      -- first chunk failed the magic check: `temp_path.unlink()` (332-333)
      ((false, "AUTH_FAILED"), { fs with temp := none })
    | some total =>
      -- `temp_path.rename(filepath)` + `record_size` (lines 345-348)
      ((true, ""),
        { disk := fun f => if f = fname then some total else fs.disk f
          sizes := fun f => if f = fname then some total else fs.sizes f
          temp := none })

/-! ## Orchestrator: the batch loops of `run` (takeout.py lines 392-532)

The result of each `download_file` call is treated as an oracle value;
a batch is a list of such results consumed in order (sequential mode)
or in completion order (parallel mode). -/

/-- The orchestrator's mutable counters and flags during one batch. -/
structure LoopState where
  completed : Nat
  failed : Nat
  consecutive404 : Nat
  authFailed : Bool
  shouldStop : Bool
deriving DecidableEq, Repr

/-- Sequential mode: processing of one `download_file` result
(takeout.py lines 440-472).  A state with the stop or auth flag set
models the `break`: later results are not consumed. -/
def seqStep (st : LoopState) (r : Bool × String) : LoopState :=
  if st.shouldStop || st.authFailed then st
  else if r.1 then
    { st with completed := st.completed + 1, consecutive404 := 0 }
  else if r.2 = "AUTH_FAILED" then { st with authFailed := true }
  else if r.2 = "NOT_FOUND" then
    if 3 ≤ st.consecutive404 + 1 then
      { st with consecutive404 := st.consecutive404 + 1, shouldStop := true }
    else { st with consecutive404 := st.consecutive404 + 1 }
  else { st with failed := st.failed + 1, consecutive404 := 0 }

/-- The sequential download loop over a batch of results. -/
def seqLoop (rs : List (Bool × String)) (st : LoopState) : LoopState :=
  rs.foldl seqStep st

/-- Parallel mode: processing of one completed future
(takeout.py lines 478-512).  Once the auth (or stop) flag is set the
remaining futures are cancelled/ignored. -/
def parStep (st : LoopState) (r : Bool × String) : LoopState :=
  if st.shouldStop || st.authFailed then st
  else if r.1 then { st with completed := st.completed + 1 }
  else if r.2 = "AUTH_FAILED" then { st with authFailed := true }
  else if r.2 = "NOT_FOUND" then st
  else { st with failed := st.failed + 1 }

/-- The parallel result-consumption loop over a batch, in completion
order. -/
def parLoop (rs : List (Bool × String)) (st : LoopState) : LoopState :=
  rs.foldl parStep st

/-- What `run` does after a batch (takeout.py lines 514-522): on an auth
failure it pauses for a new cURL and rescans; otherwise it breaks out of
the `while` loop and prints the final summary. -/
inductive RunPhase where
  | done
  | authPause
deriving DecidableEq

/-- The transition taken after a batch finishes. -/
def afterBatch (st : LoopState) : RunPhase :=
  if st.authFailed then .authPause else .done

/-! # Theorems -/

/-! ## Loop lemmas -/

theorem seqStep_of_stop (st : LoopState) (r : Bool × String)
    (h : st.shouldStop = true) : seqStep st r = st := by
  simp [seqStep, h]

theorem seqStep_of_auth (st : LoopState) (r : Bool × String)
    (h : st.authFailed = true) : seqStep st r = st := by
  simp [seqStep, h]

theorem seqLoop_of_stop (rs : List (Bool × String)) (st : LoopState)
    (h : st.shouldStop = true) : seqLoop rs st = st := by
  induction rs with
  | nil => rfl
  | cons r rs ih => simp [seqLoop, List.foldl_cons, seqStep_of_stop st r h] at ih ⊢; exact ih

theorem seqLoop_of_auth (rs : List (Bool × String)) (st : LoopState)
    (h : st.authFailed = true) : seqLoop rs st = st := by
  induction rs with
  | nil => rfl
  | cons r rs ih => simp [seqLoop, List.foldl_cons, seqStep_of_auth st r h] at ih ⊢; exact ih

theorem parStep_of_auth (st : LoopState) (r : Bool × String)
    (h : st.authFailed = true) : parStep st r = st := by
  simp [parStep, h]

theorem parLoop_of_auth (rs : List (Bool × String)) (st : LoopState)
    (h : st.authFailed = true) : parLoop rs st = st := by
  induction rs with
  | nil => rfl
  | cons r rs ih => simp [parLoop, List.foldl_cons, parStep_of_auth st r h] at ih ⊢; exact ih

theorem parStep_shouldStop (st : LoopState) (r : Bool × String) :
    (parStep st r).shouldStop = st.shouldStop := by
  unfold parStep
  split
  · rfl
  · split
    · rfl
    · split
      · rfl
      · split <;> rfl

theorem parStep_consecutive404 (st : LoopState) (r : Bool × String) :
    (parStep st r).consecutive404 = st.consecutive404 := by
  unfold parStep
  split
  · rfl
  · split
    · rfl
    · split
      · rfl
      · split <;> rfl

theorem parLoop_shouldStop (rs : List (Bool × String)) (st : LoopState) :
    (parLoop rs st).shouldStop = st.shouldStop := by
  induction rs generalizing st with
  | nil => rfl
  | cons r rs ih =>
    simp only [parLoop, List.foldl_cons] at ih ⊢
    rw [ih, parStep_shouldStop]

theorem parLoop_consecutive404 (rs : List (Bool × String)) (st : LoopState) :
    (parLoop rs st).consecutive404 = st.consecutive404 := by
  induction rs generalizing st with
  | nil => rfl
  | cons r rs ih =>
    simp only [parLoop, List.foldl_cons] at ih ⊢
    rw [ih, parStep_consecutive404]

theorem seqLoop_three_notFound (st : LoopState) (rest : List (Bool × String))
    (hs : st.shouldStop = false) (ha : st.authFailed = false)
    (hc : st.consecutive404 = 0) :
    seqLoop ((false, "NOT_FOUND") :: (false, "NOT_FOUND") :: (false, "NOT_FOUND") :: rest) st
      = { st with consecutive404 := 3, shouldStop := true } := by
  simp only [seqLoop, List.foldl_cons]
  rw [show seqStep st (false, "NOT_FOUND")
        = { st with consecutive404 := st.consecutive404 + 1 } by
      simp [seqStep, hs, ha, hc]]
  rw [show seqStep { st with consecutive404 := st.consecutive404 + 1 } (false, "NOT_FOUND")
        = { st with consecutive404 := st.consecutive404 + 2 } by
      simp [seqStep, hs, ha, hc]]
  rw [show seqStep { st with consecutive404 := st.consecutive404 + 2 } (false, "NOT_FOUND")
        = { st with consecutive404 := st.consecutive404 + 3, shouldStop := true } by
      simp [seqStep, hs, ha, hc]]
  have hdone := seqLoop_of_stop rest
    { st with consecutive404 := st.consecutive404 + 3, shouldStop := true } rfl
  simp only [seqLoop] at hdone
  rw [hdone]
  simp [hc]

theorem seqLoop_successes (n : Nat) (c f : Nat) :
    seqLoop (List.replicate n (true, "")) ⟨c, f, 0, false, false⟩
      = ⟨c + n, f, 0, false, false⟩ := by
  induction n generalizing c with
  | zero => rfl
  | succ n ih =>
    rw [List.replicate_succ]
    simp only [seqLoop, List.foldl_cons] at ih ⊢
    rw [show seqStep ⟨c, f, 0, false, false⟩ (true, "") = ⟨c + 1, f, 0, false, false⟩ by
      simp [seqStep]]
    rw [ih]
    congr 1
    omega

theorem seqLoop_append (rs₁ rs₂ : List (Bool × String)) (st : LoopState) :
    seqLoop (rs₁ ++ rs₂) st = seqLoop rs₂ (seqLoop rs₁ st) :=
  List.foldl_append _ _ _ _

/-! ## Claim theorems for the orchestrator loops -/

/-- Claim C3: in sequential (single-worker) mode, three consecutive
`NOT_FOUND` results terminate the whole run as `Done` (not as a
failure, and with all prior successes counted in `completed`); a
success or an other-error outcome resets the consecutive-404 counter;
and the parallel loop never applies the heuristic (it neither stops the
run nor tracks consecutive 404s). -/
theorem claim_C3_consecutive_notFound :
    (∀ (st : LoopState) (rest : List (Bool × String)),
      st.shouldStop = false → st.authFailed = false → st.consecutive404 = 0 →
      seqLoop ((false, "NOT_FOUND") :: (false, "NOT_FOUND") :: (false, "NOT_FOUND") :: rest) st
          = { st with consecutive404 := 3, shouldStop := true } ∧
        afterBatch (seqLoop ((false, "NOT_FOUND") :: (false, "NOT_FOUND") ::
          (false, "NOT_FOUND") :: rest) st) = .done) ∧
    (∀ (st : LoopState) (msg : String),
      st.shouldStop = false → st.authFailed = false →
      (seqStep st (true, msg)).consecutive404 = 0) ∧
    (∀ (st : LoopState) (err : String),
      st.shouldStop = false → st.authFailed = false →
      err ≠ "AUTH_FAILED" → err ≠ "NOT_FOUND" →
      (seqStep st (false, err)).consecutive404 = 0) ∧
    (∀ (n : Nat) (rest : List (Bool × String)),
      seqLoop (List.replicate n (true, "") ++ (false, "NOT_FOUND") ::
          (false, "NOT_FOUND") :: (false, "NOT_FOUND") :: rest) ⟨0, 0, 0, false, false⟩
          = ⟨n, 0, 3, false, true⟩ ∧
        afterBatch (seqLoop (List.replicate n (true, "") ++ (false, "NOT_FOUND") ::
          (false, "NOT_FOUND") :: (false, "NOT_FOUND") :: rest) ⟨0, 0, 0, false, false⟩)
          = .done) ∧
    (∀ (rs : List (Bool × String)) (st : LoopState),
      (parLoop rs st).shouldStop = st.shouldStop ∧
        (parLoop rs st).consecutive404 = st.consecutive404) := by
  refine ⟨fun st rest hs ha hc => ?_, fun st msg hs ha => ?_, fun st err hs ha h1 h2 => ?_,
    fun n rest => ?_, fun rs st => ⟨parLoop_shouldStop rs st, parLoop_consecutive404 rs st⟩⟩
  · have h := seqLoop_three_notFound st rest hs ha hc
    exact ⟨h, by rw [h]; simp [afterBatch, ha]⟩
  · simp [seqStep, hs, ha]
  · simp [seqStep, hs, ha, h1, h2]
  · have h := seqLoop_append (List.replicate n (true, ""))
      ((false, "NOT_FOUND") :: (false, "NOT_FOUND") :: (false, "NOT_FOUND") :: rest)
      ⟨0, 0, 0, false, false⟩
    rw [seqLoop_successes n 0 0] at h
    have h3 := seqLoop_three_notFound ⟨0 + n, 0, 0, false, false⟩ rest rfl rfl rfl
    rw [h3] at h
    have hval : seqLoop (List.replicate n (true, "") ++ (false, "NOT_FOUND") ::
        (false, "NOT_FOUND") :: (false, "NOT_FOUND") :: rest) ⟨0, 0, 0, false, false⟩
        = ⟨n, 0, 3, false, true⟩ := by
      rw [h]; simp
    exact ⟨hval, by rw [hval]; simp [afterBatch]⟩

/-- Witness for C3: six successes then three `NOT_FOUND` in sequential
mode end the run as `Done` with `completed = 6` and no failures. -/
theorem claim_C3_witness :
    seqLoop (List.replicate 6 (true, "") ++ (false, "NOT_FOUND") ::
        (false, "NOT_FOUND") :: (false, "NOT_FOUND") :: []) ⟨0, 0, 0, false, false⟩
        = ⟨6, 0, 3, false, true⟩ ∧
      afterBatch (seqLoop (List.replicate 6 (true, "") ++ (false, "NOT_FOUND") ::
        (false, "NOT_FOUND") :: (false, "NOT_FOUND") :: []) ⟨0, 0, 0, false, false⟩)
        = .done :=
  claim_C3_consecutive_notFound.2.2.2.1 6 []

/-! ## Claim theorems for the size-history store -/

/-- Claim C9: `SizeHistory.load` never fails — an absent, unreadable or
corrupt (non-JSON) persisted file yields the empty map, and a
well-formed persisted map is loaded as-is. -/
theorem claim_C9_load_never_fails :
    SizeHistory_load .absent = [] ∧ SizeHistory_load .unreadable = [] ∧
      SizeHistory_load .corrupt = [] ∧
      ∀ m, SizeHistory_load (.wellFormed m) = m :=
  ⟨rfl, rfl, rfl, fun _ => rfl⟩

/-! ## Claim theorems for the fetch worker -/

/-- Claim C10: when the target file exists with nonzero size and either
no recorded expected size or size at least the recorded expected size,
`download_file` returns success with message `already exists`, performs
no HTTP request (the result is the same for every response the request
could produce) and leaves the filesystem and size history untouched. -/
theorem claim_C10_skip_already_exists (fs : FetchState) (fname : String)
    (size : Nat) (hd : fs.disk fname = some size) (hpos : 0 < size)
    (he : fs.sizes fname = none ∨ ∃ k, fs.sizes fname = some k ∧ k ≤ size) :
    ∀ (resp : HttpResponse) (stop : Bool),
      download_file fs fname resp stop = ((true, "already exists"), fs) := by
  intro resp stop
  have hlc : looksComplete (fs.disk fname) (fs.sizes fname) = true := by
    rcases he with h | ⟨k, hk, hks⟩
    · simp [looksComplete, hd, h, optTruthy, hpos]
    · rcases Nat.eq_zero_or_pos k with rfl | hkpos
      · simp [looksComplete, hd, hk, optTruthy, hpos]
      · simp [looksComplete, hd, hk, optTruthy, hpos, hks, Nat.pos_iff_ne_zero.mp hkpos]
  unfold download_file
  rw [hlc]
  simp

/-- Witness for C10 at a concrete state and two unrelated responses. -/
theorem claim_C10_witness :
    download_file
        ⟨fun f => if f = "takeout-x-1-001.zip" then some 7 else none,
          fun _ => none, none⟩
        "takeout-x-1-001.zip" ⟨404, "u", "text/html", 0, [[1, 2]]⟩ false
      = ((true, "already exists"),
        ⟨fun f => if f = "takeout-x-1-001.zip" then some 7 else none,
          fun _ => none, none⟩) :=
  claim_C10_skip_already_exists _ _ 7 (by simp) (by decide) (Or.inl rfl) _ _

/-- Claim C2: a download whose first non-empty body chunk does not start
with the ZIP magic `PK` — provided the response got past the status and
content-type classification — yields the `AUTH_FAILED` outcome, deletes
the temporary file, and leaves no file at the final destination path,
regardless of the declared content length (no hypothesis constrains
`resp.contentLength`). -/
theorem claim_C2_magic_byte_gate (fs : FetchState) (fname : String)
    (resp : HttpResponse)
    (hdisk : fs.disk fname = none) (htemp : fs.temp = none)
    (h401 : resp.statusCode ≠ 401) (h403 : resp.statusCode ≠ 403)
    (h302 : resp.statusCode ≠ 302)
    (hurl : strContains resp.url "accounts.google" = false)
    (hstatus : resp.statusCode < 400)
    (hhtml : strContains resp.contentType "text/html" = false)
    (hmagic : streamBody resp.chunks 0 = none) :
    (download_file fs fname resp false).1 = (false, "AUTH_FAILED") ∧
      (download_file fs fname resp false).2.disk fname = none ∧
      (download_file fs fname resp false).2.temp = none ∧
      (download_file fs fname resp false).2.sizes = fs.sizes := by
  have hlc : looksComplete (fs.disk fname) (fs.sizes fname) = false := by
    simp [looksComplete, hdisk]
  unfold download_file
  rw [hlc]
  by_cases hlen : resp.contentLength < 1000
  · simp [h401, h403, h302, hurl, Nat.not_le.mpr hstatus, hhtml, hlen, hdisk, htemp]
  · simp [h401, h403, h302, hurl, Nat.not_le.mpr hstatus, hhtml, hlen, hdisk, htemp, hmagic]

/-- Witness for C2: a plausible content length with an HTML-looking
first chunk is rejected with nothing left on disk. -/
theorem claim_C2_witness :
    (download_file ⟨fun _ => none, fun _ => none, none⟩ "takeout-x-1-001.zip"
        ⟨200, "u", "application/zip", 2000000, [[60, 104, 116, 109, 108]]⟩ false).1
        = (false, "AUTH_FAILED") ∧
      (download_file ⟨fun _ => none, fun _ => none, none⟩ "takeout-x-1-001.zip"
        ⟨200, "u", "application/zip", 2000000, [[60, 104, 116, 109, 108]]⟩ false).2.disk
        "takeout-x-1-001.zip" = none ∧
      (download_file ⟨fun _ => none, fun _ => none, none⟩ "takeout-x-1-001.zip"
        ⟨200, "u", "application/zip", 2000000, [[60, 104, 116, 109, 108]]⟩ false).2.temp
        = none ∧
      (download_file ⟨fun _ => none, fun _ => none, none⟩ "takeout-x-1-001.zip"
        ⟨200, "u", "application/zip", 2000000, [[60, 104, 116, 109, 108]]⟩ false).2.sizes
        = (⟨fun _ => none, fun _ => none, none⟩ : FetchState).sizes :=
  claim_C2_magic_byte_gate _ _ _ rfl rfl (by decide) (by decide) (by decide)
    (by decide) (by decide) (by decide) (by decide)

/-- Counterexample to C5: an HTML response whose body never mentions
sign-in or login (the chunk spells `hello`) is classified exactly like
an authentication failure — `download_file` returns the same
`AUTH_FAILED` outcome it returns for an HTTP 401, and no distinct
`WrongContentType` outcome exists in the code. -/
theorem claim_C5_counterexample :
    (download_file ⟨fun _ => none, fun _ => none, none⟩ "f.zip"
        ⟨200, "u", "text/html", 2000000, [[104, 101, 108, 108, 111]]⟩ false).1
        = (false, "AUTH_FAILED") ∧
      (download_file ⟨fun _ => none, fun _ => none, none⟩ "f.zip"
        ⟨401, "u", "", 0, []⟩ false).1 = (false, "AUTH_FAILED") :=
  ⟨rfl, rfl⟩

/-- C5 as amended: for every response whose `Content-Type` contains
`text/html` (past the status checks), `download_file` returns the same
`AUTH_FAILED` outcome used for authentication failures without
inspecting the body — the result is independent of the body chunks —
and writes nothing. -/
theorem claim_C5_amended_html_is_auth_failure (fs : FetchState) (fname : String)
    (resp : HttpResponse)
    (hdisk : fs.disk fname = none)
    (h401 : resp.statusCode ≠ 401) (h403 : resp.statusCode ≠ 403)
    (h302 : resp.statusCode ≠ 302)
    (hurl : strContains resp.url "accounts.google" = false)
    (hstatus : resp.statusCode < 400)
    (hhtml : strContains resp.contentType "text/html" = true) :
    ∀ (chunks' : List (List Nat)) (stop : Bool),
      download_file fs fname
          ⟨resp.statusCode, resp.url, resp.contentType, resp.contentLength, chunks'⟩
          stop
        = ((false, "AUTH_FAILED"), fs) := by
  intro chunks' stop
  have hlc : looksComplete (fs.disk fname) (fs.sizes fname) = false := by
    simp [looksComplete, hdisk]
  unfold download_file
  rw [hlc]
  simp [h401, h403, h302, hurl, Nat.not_le.mpr hstatus, hhtml]

/-- Witness for the amended C5. -/
theorem claim_C5_amended_witness :
    download_file ⟨fun _ => none, fun _ => none, none⟩ "f.zip"
        ⟨200, "u", "text/html; charset=utf-8", 2000000, [[80, 75, 3, 4]]⟩ false
      = ((false, "AUTH_FAILED"), ⟨fun _ => none, fun _ => none, none⟩) :=
  claim_C5_amended_html_is_auth_failure _ _
    ⟨200, "u", "text/html; charset=utf-8", 2000000, []⟩ rfl (by decide) (by decide)
    (by decide) (by decide) (by decide) (by decide) [[80, 75, 3, 4]] false

/-- Counterexample to C6: a response with declared content length 500
(below the 1000-byte threshold) is *not* given a distinct `TooSmall`
outcome — `download_file` returns the very same `AUTH_FAILED` outcome
it returns for an HTTP 401 authentication failure. -/
theorem claim_C6_counterexample :
    (download_file ⟨fun _ => none, fun _ => none, none⟩ "f.zip"
        ⟨200, "u", "application/zip", 500, []⟩ false).1 = (false, "AUTH_FAILED") ∧
      (download_file ⟨fun _ => none, fun _ => none, none⟩ "f.zip"
        ⟨401, "u", "", 0, []⟩ false).1 = (false, "AUTH_FAILED") :=
  ⟨rfl, rfl⟩

/-- C6 as amended: for every response that reaches the content-length
check (past the status, redirect and content-type checks) and declares
fewer than 1000 bytes, `download_file` returns the same `AUTH_FAILED`
outcome used for authentication failures — there is no distinct
`TooSmall` outcome — and writes no file at the final destination. -/
theorem claim_C6_amended_small_is_auth_failure (fs : FetchState) (fname : String)
    (resp : HttpResponse)
    (hdisk : fs.disk fname = none)
    (h401 : resp.statusCode ≠ 401) (h403 : resp.statusCode ≠ 403)
    (h302 : resp.statusCode ≠ 302)
    (hurl : strContains resp.url "accounts.google" = false)
    (hstatus : resp.statusCode < 400)
    (hhtml : strContains resp.contentType "text/html" = false)
    (hsmall : resp.contentLength < 1000) :
    ∀ stop : Bool,
      download_file fs fname resp stop = ((false, "AUTH_FAILED"), fs) := by
  intro stop
  have hlc : looksComplete (fs.disk fname) (fs.sizes fname) = false := by
    simp [looksComplete, hdisk]
  unfold download_file
  rw [hlc]
  simp [h401, h403, h302, hurl, Nat.not_le.mpr hstatus, hhtml, hsmall]

/-- Witness for the amended C6. -/
theorem claim_C6_amended_witness :
    download_file ⟨fun _ => none, fun _ => none, none⟩ "f.zip"
        ⟨200, "u", "application/zip", 500, []⟩ false
      = ((false, "AUTH_FAILED"), ⟨fun _ => none, fun _ => none, none⟩) :=
  claim_C6_amended_small_is_auth_failure _ _ _ rfl (by decide) (by decide)
    (by decide) (by decide) (by decide) (by decide) (by decide) false

/-! ## Claim theorems for the scanning pass -/

/-- Claim C1: in the scanning pass each index from 1 to the configured
maximum is inspected (the last conjunct fixes the pass as the fold of
the per-index step over `range(1, file_count + 1)`): a missing file is
marked as needed; a zero-length file is deleted and marked; a file
strictly below its recorded expected size is deleted and marked; a
nonzero file with no recorded size, or of size at least its recorded
size, is left on disk and not marked, and when it has no history entry
its current size is backfilled. -/
theorem claim_C1_scan_pass (g : Nat → String) (st : ScanState) (num : Nat) :
    (st.disk (g num) = none →
      cleanupStep g st num = { st with firstMissing := markMissing st.firstMissing num }) ∧
    (st.disk (g num) = some 0 →
      (cleanupStep g st num).disk (g num) = none ∧
        (cleanupStep g st num).sizes = st.sizes ∧
        (cleanupStep g st num).firstMissing = markMissing st.firstMissing num) ∧
    (∀ s e, st.disk (g num) = some s → st.sizes (g num) = some e → s < e →
      (cleanupStep g st num).disk (g num) = none ∧
        (cleanupStep g st num).sizes = st.sizes ∧
        (cleanupStep g st num).firstMissing = markMissing st.firstMissing num) ∧
    (∀ s, st.disk (g num) = some s → 0 < s →
      (st.sizes (g num) = none ∨ ∃ e, st.sizes (g num) = some e ∧ e ≤ s) →
      (cleanupStep g st num).disk = st.disk ∧
        (cleanupStep g st num).firstMissing = st.firstMissing ∧
        (st.sizes (g num) = none → (cleanupStep g st num).sizes (g num) = some s)) ∧
    (∀ fileCount fs, cleanup_bad_files g fileCount fs
      = (FsState.mk
          ((List.range' 1 fileCount).foldl (cleanupStep g) ⟨fs.disk, fs.sizes, none⟩).disk
          ((List.range' 1 fileCount).foldl (cleanupStep g) ⟨fs.disk, fs.sizes, none⟩).sizes,
          ((List.range' 1 fileCount).foldl (cleanupStep g)
            ⟨fs.disk, fs.sizes, none⟩).firstMissing.getD 1)) := by
  refine ⟨fun hmiss => ?_, fun hzero => ?_, fun s e hd he hlt => ?_,
    fun s hd hpos he => ?_, fun fileCount fs => rfl⟩
  · simp [cleanupStep, hmiss]
  · simp [cleanupStep, hzero]
  · rcases Nat.eq_zero_or_pos s with rfl | hs
    · simp [cleanupStep, hd]
    · have he0 : e ≠ 0 := by omega
      have hstep : cleanupStep g st num
          = { disk := fun f => if f = g num then none else st.disk f
              sizes := st.sizes
              firstMissing := markMissing st.firstMissing num } := by
        unfold cleanupStep
        rw [hd]
        simp [Nat.pos_iff_ne_zero.mp hs, he, optTruthy, he0, hlt]
      rw [hstep]
      exact ⟨by simp, rfl, rfl⟩
  · have hne := Nat.pos_iff_ne_zero.mp hpos
    rcases he with hnone | ⟨e, he, hle⟩
    · simp [cleanupStep, hd, hnone, optTruthy, hne]
    · rcases Nat.eq_zero_or_pos e with rfl | hepos
      · simp [cleanupStep, hd, he, optTruthy, hne]
      · simp [cleanupStep, hd, he, optTruthy, hne, Nat.pos_iff_ne_zero.mp hepos,
          Nat.not_lt.mpr hle]

/-- Witness for C1 at a concrete state: a missing file is marked as the
first needed index. -/
theorem claim_C1_witness :
    cleanupStep (fun n => if n = 1 then "takeout-x-1-001.zip" else "other.zip")
        ⟨fun _ => none, fun _ => none, none⟩ 1
      = ⟨fun _ => none, fun _ => none, some 1⟩ :=
  (claim_C1_scan_pass (fun n => if n = 1 then "takeout-x-1-001.zip" else "other.zip")
    ⟨fun _ => none, fun _ => none, none⟩ 1).1 rfl

/-- Counterexample to C7: the scanning pass `cleanup_bad_files` — not a
download — records a size-history entry: at a state holding a 5-byte
file with no history entry, one scan iteration backfills `some 5` into
the history. -/
theorem claim_C7_counterexample :
    (cleanupStep (fun _ => "f.zip")
          ⟨fun f => if f = "f.zip" then some 5 else none, fun _ => none, none⟩ 1).sizes
        "f.zip" = some 5 ∧
      (⟨fun f => if f = "f.zip" then some 5 else none, fun _ => none,
        none⟩ : ScanState).sizes "f.zip" = none := by
  exact ⟨by simp [cleanupStep, optTruthy], rfl⟩

/-- C7 as amended: size-history entries are written at exactly two
points — on successful completion of a fully streamed download
(`download_file` leaves the history untouched unless it returns the
streamed-success result `(true, "")`), and by the scanning pass as a
backfill for an on-disk file with nonzero size, no truthy recorded
size, and no deletion (the `backfillCond` case, which records the
file's current size). -/
theorem claim_C7_amended_history_writes :
    (∀ (fs : FetchState) (fname : String) (resp : HttpResponse) (stop : Bool),
      (download_file fs fname resp stop).1 ≠ (true, "") →
      (download_file fs fname resp stop).2.sizes = fs.sizes) ∧
    (∀ (g : Nat → String) (st : ScanState) (num : Nat),
      backfillCond (st.disk (g num)) (st.sizes (g num)) = false →
      (cleanupStep g st num).sizes = st.sizes) ∧
    (∀ (g : Nat → String) (st : ScanState) (num : Nat) (s : Nat),
      st.disk (g num) = some s → 0 < s → optTruthy (st.sizes (g num)) = false →
      (cleanupStep g st num).sizes
        = fun f => if f = g num then some s else st.sizes f) := by
  refine ⟨fun fs fname resp stop h => ?_, fun g st num h => ?_,
    fun g st num s hd hpos htr => ?_⟩
  · unfold download_file at h ⊢
    split
    · rfl
    · split
      · rfl
      · split
        · rfl
        · split
          · split <;> rfl
          · split
            · rfl
            · split
              · rfl
              · split
                · rfl
                · split
                  · rfl
                  · exfalso
                    simp_all
  · unfold backfillCond at h
    cases hd : st.disk (g num) with
    | none => simp [cleanupStep, hd]
    | some size =>
      rw [hd] at h
      have h2 : (decide (0 < size) && !optTruthy (st.sizes (g num))) = false := h
      by_cases hz : size = 0
      · simp [cleanupStep, hd, hz]
      · have hpos : 0 < size := Nat.pos_of_ne_zero hz
        have htr : optTruthy (st.sizes (g num)) = true := by
          cases hx : optTruthy (st.sizes (g num))
          · rw [hx] at h2
            simp [hpos] at h2
          · rfl
        simp only [cleanupStep, hd, hz, htr]
        simp [hz]
        split <;> rfl
  · unfold cleanupStep
    rw [hd]
    simp [Nat.pos_iff_ne_zero.mp hpos, htr]

/-- Witness for the amended C7: a 401 response leaves the history
untouched. -/
theorem claim_C7_amended_witness :
    (download_file ⟨fun _ => none, fun _ => none, none⟩ "f.zip"
        ⟨401, "u", "", 0, []⟩ false).2.sizes
      = (⟨fun _ => none, fun _ => none, none⟩ : FetchState).sizes :=
  claim_C7_amended_history_writes.1 ⟨fun _ => none, fun _ => none, none⟩ "f.zip"
    ⟨401, "u", "", 0, []⟩ false (by decide)

/-! ## Scan-fold lemmas for the rescan characterization -/

theorem cleanupStep_preserves_other (g : Nat → String) (st : ScanState)
    (num : Nat) (f : String) (h : f ≠ g num) :
    (cleanupStep g st num).disk f = st.disk f ∧
      (cleanupStep g st num).sizes f = st.sizes f := by
  unfold cleanupStep
  split
  · exact ⟨rfl, rfl⟩
  · split
    · exact ⟨by simp [h], rfl⟩
    · split
      · exact ⟨by simp [h], rfl⟩
      · split
        · exact ⟨rfl, rfl⟩
        · exact ⟨rfl, by simp [h]⟩

theorem cleanupStep_self_disk (g : Nat → String) (st : ScanState) (num : Nat) :
    (cleanupStep g st num).disk (g num)
      = postDisk (st.disk (g num)) (st.sizes (g num)) := by
  unfold cleanupStep postDisk
  cases hd : st.disk (g num) <;> simp [hd]
  split_ifs <;> simp [hd]

theorem cleanupStep_self_sizes (g : Nat → String) (st : ScanState) (num : Nat) :
    (cleanupStep g st num).sizes (g num)
      = postSizes (st.disk (g num)) (st.sizes (g num)) := by
  unfold cleanupStep postSizes
  cases hd : st.disk (g num) <;> simp [hd]
  split_ifs <;> simp [hd]

theorem cleanupStep_firstMissing (g : Nat → String) (st : ScanState) (num : Nat) :
    (cleanupStep g st num).firstMissing
      = if needsDE (st.disk (g num)) (st.sizes (g num))
          then markMissing st.firstMissing num else st.firstMissing := by
  unfold cleanupStep needsDE
  cases hd : st.disk (g num) <;> simp [hd]
  split_ifs <;> simp_all <;> omega

theorem cleanupStep_fm_some (g : Nat → String) (st : ScanState) (num k : Nat)
    (h : st.firstMissing = some k) :
    (cleanupStep g st num).firstMissing = some k := by
  rw [cleanupStep_firstMissing]
  split <;> simp [markMissing, h]

theorem cleanupFold_preserves_other (g : Nat → String) (L : List Nat)
    (st : ScanState) (f : String) (h : ∀ num ∈ L, g num ≠ f) :
    (L.foldl (cleanupStep g) st).disk f = st.disk f ∧
      (L.foldl (cleanupStep g) st).sizes f = st.sizes f := by
  induction L generalizing st with
  | nil => exact ⟨rfl, rfl⟩
  | cons a L ih =>
    simp only [List.foldl_cons]
    have ha := cleanupStep_preserves_other g st a f
      (fun he => h a (List.mem_cons_self a L) he.symm)
    have hL := ih (cleanupStep g st a) (fun num hm => h num (List.mem_cons_of_mem a hm))
    exact ⟨hL.1.trans ha.1, hL.2.trans ha.2⟩

theorem cleanupFold_fm_some (g : Nat → String) (L : List Nat) (st : ScanState)
    (k : Nat) (h : st.firstMissing = some k) :
    (L.foldl (cleanupStep g) st).firstMissing = some k := by
  induction L generalizing st with
  | nil => exact h
  | cons a L ih =>
    simp only [List.foldl_cons]
    exact ih (cleanupStep g st a) (cleanupStep_fm_some g st a k h)

theorem cleanupFold_self (g : Nat → String) (L : List Nat) (st : ScanState)
    (num : Nat) (hmem : num ∈ L) (hnd : L.Nodup)
    (hinj : ∀ i ∈ L, ∀ j ∈ L, g i = g j → i = j) :
    (L.foldl (cleanupStep g) st).disk (g num)
        = postDisk (st.disk (g num)) (st.sizes (g num)) ∧
      (L.foldl (cleanupStep g) st).sizes (g num)
        = postSizes (st.disk (g num)) (st.sizes (g num)) := by
  induction L generalizing st with
  | nil => cases hmem
  | cons a L ih =>
    simp only [List.foldl_cons]
    have hnotmem : a ∉ L := (List.nodup_cons.mp hnd).1
    rcases List.mem_cons.mp hmem with rfl | hmem'
    · have hother : ∀ j ∈ L, g j ≠ g num := by
        intro j hj he
        have := hinj j (List.mem_cons_of_mem _ hj) num (List.mem_cons_self _ _) he
        exact hnotmem (this ▸ hj)
      have hframe := cleanupFold_preserves_other g L (cleanupStep g st num)
        (g num) hother
      exact ⟨hframe.1.trans (cleanupStep_self_disk g st num),
        hframe.2.trans (cleanupStep_self_sizes g st num)⟩
    · have hne : g num ≠ g a := by
        intro he
        have := hinj num (List.mem_cons_of_mem _ hmem') a (List.mem_cons_self _ _) he
        exact hnotmem (this ▸ hmem')
      have hpres := cleanupStep_preserves_other g st a (g num) hne
      have hih := ih (cleanupStep g st a) hmem' (List.nodup_cons.mp hnd).2
        (fun i hi j hj he =>
          hinj i (List.mem_cons_of_mem a hi) j (List.mem_cons_of_mem a hj) he)
      rw [hih.1, hih.2, hpres.1, hpres.2]
      exact ⟨rfl, rfl⟩

theorem find?_congr_on (p q : Nat → Bool) (L : List Nat)
    (h : ∀ x ∈ L, p x = q x) : L.find? p = L.find? q := by
  induction L with
  | nil => rfl
  | cons a L ih =>
    have ha := h a (List.mem_cons_self a L)
    by_cases hp : p a = true
    · rw [List.find?_cons_of_pos L hp, List.find?_cons_of_pos L (ha ▸ hp)]
    · rw [List.find?_cons_of_neg L hp, List.find?_cons_of_neg L (fun hq => hp (ha ▸ hq)),
        ih (fun x hx => h x (List.mem_cons_of_mem a hx))]

theorem cleanupFold_firstMissing (g : Nat → String) (L : List Nat)
    (st : ScanState) (hnd : L.Nodup)
    (hinj : ∀ i ∈ L, ∀ j ∈ L, g i = g j → i = j)
    (h : st.firstMissing = none) :
    (L.foldl (cleanupStep g) st).firstMissing
      = L.find? (fun num => needsDE (st.disk (g num)) (st.sizes (g num))) := by
  induction L generalizing st with
  | nil => simpa using h
  | cons a L ih =>
    simp only [List.foldl_cons]
    have hnotmem : a ∉ L := (List.nodup_cons.mp hnd).1
    by_cases hp : needsDE (st.disk (g a)) (st.sizes (g a)) = true
    · have hstep : (cleanupStep g st a).firstMissing = some a := by
        rw [cleanupStep_firstMissing, if_pos hp]
        simp [markMissing, h]
      rw [List.find?_cons_of_pos L hp]
      exact cleanupFold_fm_some g L _ a hstep
    · have hstep : (cleanupStep g st a).firstMissing = none := by
        rw [cleanupStep_firstMissing, if_neg hp]
        exact h
      have hvals : ∀ j ∈ L,
          (cleanupStep g st a).disk (g j) = st.disk (g j) ∧
            (cleanupStep g st a).sizes (g j) = st.sizes (g j) := by
        intro j hj
        refine cleanupStep_preserves_other g st a (g j) ?_
        intro he
        have := hinj j (List.mem_cons_of_mem _ hj) a (List.mem_cons_self _ _) he
        exact hnotmem (this ▸ hj)
      rw [ih (cleanupStep g st a) (List.nodup_cons.mp hnd).2
        (fun i hi j hj he =>
          hinj i (List.mem_cons_of_mem a hi) j (List.mem_cons_of_mem a hj) he) hstep]
      rw [find?_congr_on _ _ L (fun j hj => by rw [(hvals j hj).1, (hvals j hj).2])]
      rw [List.find?_cons_of_neg L hp]

theorem looksComplete_postScan (d e : Option Nat) :
    looksComplete (postDisk d e) (postSizes d e) = !needsDE d e := by
  rcases d with _ | s
  · rfl
  · rcases Nat.eq_zero_or_pos s with rfl | hs
    · rfl
    · have hs0 : ¬s = 0 := Nat.pos_iff_ne_zero.mp hs
      rcases e with _ | k
      · simp [postDisk, postSizes, looksComplete, needsDE, optTruthy, hs0, hs]
      · rcases Nat.eq_zero_or_pos k with rfl | hk
        · simp [postDisk, postSizes, looksComplete, needsDE, optTruthy, hs0, hs]
        · have hk0 : ¬k = 0 := Nat.pos_iff_ne_zero.mp hk
          by_cases hlt : s < k
          · simp [postDisk, postSizes, looksComplete, needsDE, optTruthy, hs0, hk0, hlt]
          · simp [postDisk, postSizes, looksComplete, needsDE, optTruthy, hs0, hk0, hlt,
              Nat.le_of_not_lt hlt]
            omega

theorem find?_range'_le (p : Nat → Bool) :
    ∀ (n s k : Nat), (List.range' s n).find? p = some k →
      ∀ m ∈ List.range' s n, p m = true → k ≤ m := by
  intro n
  induction n with
  | zero =>
    intro s k h
    simp [List.range'] at h
  | succ n ih =>
    intro s k h m hm hpm
    rw [List.range'_succ] at h hm
    by_cases hp : p s = true
    · rw [List.find?_cons_of_pos _ hp] at h
      have hk : k = s := by injection h with h'; exact h'.symm
      subst hk
      rcases List.mem_cons.mp hm with rfl | hm'
      · exact le_rfl
      · exact Nat.le_of_lt (Nat.lt_of_lt_of_le (Nat.lt_succ_self k)
          (List.mem_range'_1.mp hm').1)
    · rw [List.find?_cons_of_neg _ hp] at h
      rcases List.mem_cons.mp hm with rfl | hm'
      · exact absurd hpm hp
      · exact ih (s + 1) k h m hm' hpm

theorem rescan_mem_iff (g : Nat → String) (fs : FsState) (fileCount : Nat)
    (hinj : ∀ i ∈ List.range' 1 fileCount, ∀ j ∈ List.range' 1 fileCount,
      g i = g j → i = j) (num : Nat) :
    num ∈ rescanRetryList g fileCount fs
      ↔ (num ∈ List.range' 1 fileCount ∧ needsDownload g fs num = true) := by
  have hnd : (List.range' 1 fileCount).Nodup := List.nodup_range' 1 fileCount
  have hfm : ((List.range' 1 fileCount).foldl (cleanupStep g)
        ⟨fs.disk, fs.sizes, none⟩).firstMissing
      = (List.range' 1 fileCount).find?
          (fun m => needsDE (fs.disk (g m)) (fs.sizes (g m))) :=
    cleanupFold_firstMissing g _ ⟨fs.disk, fs.sizes, none⟩ hnd hinj rfl
  have hunfold : rescanRetryList g fileCount fs
      = (List.range'
          (((List.range' 1 fileCount).foldl (cleanupStep g)
            ⟨fs.disk, fs.sizes, none⟩).firstMissing.getD 1)
          (fileCount + 1 -
            ((List.range' 1 fileCount).foldl (cleanupStep g)
              ⟨fs.disk, fs.sizes, none⟩).firstMissing.getD 1)).filter
          (fun m => !looksComplete
            (((List.range' 1 fileCount).foldl (cleanupStep g)
              ⟨fs.disk, fs.sizes, none⟩).disk (g m))
            (((List.range' 1 fileCount).foldl (cleanupStep g)
              ⟨fs.disk, fs.sizes, none⟩).sizes (g m))) := rfl
  have hfirst1 : 1 ≤ ((List.range' 1 fileCount).foldl (cleanupStep g)
      ⟨fs.disk, fs.sizes, none⟩).firstMissing.getD 1 := by
    rw [hfm]
    cases hf : (List.range' 1 fileCount).find?
        (fun m => needsDE (fs.disk (g m)) (fs.sizes (g m))) with
    | none => simp
    | some k =>
      simp only [Option.getD_some]
      exact (List.mem_range'_1.mp (List.mem_of_find?_eq_some hf)).1
  constructor
  · intro hin
    rw [hunfold] at hin
    have hin' := List.mem_filter.mp hin
    have hrange := List.mem_range'_1.mp hin'.1
    have hnumL : num ∈ List.range' 1 fileCount := by
      apply List.mem_range'_1.mpr
      omega
    have hself := cleanupFold_self g (List.range' 1 fileCount)
      ⟨fs.disk, fs.sizes, none⟩ num hnumL hnd hinj
    have hpred := hin'.2
    rw [hself.1, hself.2, looksComplete_postScan] at hpred
    refine ⟨hnumL, ?_⟩
    unfold needsDownload
    simpa using hpred
  · rintro ⟨hnumL, hneed⟩
    unfold needsDownload at hneed
    rw [hunfold]
    have hnum := List.mem_range'_1.mp hnumL
    refine List.mem_filter.mpr ⟨?_, ?_⟩
    · have hfle : ((List.range' 1 fileCount).foldl (cleanupStep g)
          ⟨fs.disk, fs.sizes, none⟩).firstMissing.getD 1 ≤ num := by
        rw [hfm]
        cases hf : (List.range' 1 fileCount).find?
            (fun m => needsDE (fs.disk (g m)) (fs.sizes (g m))) with
        | none =>
          exact absurd hneed (List.find?_eq_none.mp hf num hnumL)
        | some k =>
          simp only [Option.getD_some]
          exact find?_range'_le _ fileCount 1 k hf num hnumL hneed
      apply List.mem_range'_1.mpr
      omega
    · have hself := cleanupFold_self g (List.range' 1 fileCount)
        ⟨fs.disk, fs.sizes, none⟩ num hnumL hnd hinj
      rw [hself.1, hself.2, looksComplete_postScan]
      simpa using hneed

/-- Claim C4: an `AUTH_FAILED` outcome never increments the failed
counter (in either mode it only sets the auth flag), once the auth flag
is set every remaining result of the batch is abandoned without
touching any counter, and — for any filename map that is injective on
the scanned indices — the post-auth rescan retries exactly the indices
whose files are still missing or incomplete on disk. -/
theorem claim_C4_auth_pause_protocol :
    (∀ st : LoopState, st.shouldStop = false → st.authFailed = false →
      seqStep st (false, "AUTH_FAILED") = { st with authFailed := true }) ∧
    (∀ st : LoopState, st.shouldStop = false → st.authFailed = false →
      parStep st (false, "AUTH_FAILED") = { st with authFailed := true }) ∧
    (∀ (rs : List (Bool × String)) (st : LoopState), st.authFailed = true →
      seqLoop rs st = st ∧ parLoop rs st = st) ∧
    (∀ (g : Nat → String) (fs : FsState) (fileCount : Nat),
      (∀ i ∈ List.range' 1 fileCount, ∀ j ∈ List.range' 1 fileCount,
        g i = g j → i = j) →
      ∀ num, num ∈ rescanRetryList g fileCount fs
        ↔ (num ∈ List.range' 1 fileCount ∧ needsDownload g fs num = true)) := by
  refine ⟨fun st hs ha => ?_, fun st hs ha => ?_,
    fun rs st ha => ⟨seqLoop_of_auth rs st ha, parLoop_of_auth rs st ha⟩,
    fun g fs fileCount hinj num => rescan_mem_iff g fs fileCount hinj num⟩
  · simp [seqStep, hs, ha]
  · simp [parStep, hs, ha]

/-- Witness for C4: with one configured file whose target is missing,
the rescan retries exactly index 1. -/
theorem claim_C4_witness :
    1 ∈ rescanRetryList (fun _ => "takeout-x-1-001.zip") 1
        ⟨fun _ => none, fun _ => none⟩
      ↔ (1 ∈ List.range' 1 1 ∧
          needsDownload (fun _ => "takeout-x-1-001.zip")
            ⟨fun _ => none, fun _ => none⟩ 1 = true) :=
  claim_C4_auth_pause_protocol.2.2.2 (fun _ => "takeout-x-1-001.zip")
    ⟨fun _ => none, fun _ => none⟩ 1
    (fun i hi j hj _ => by
      rw [List.mem_range'_1] at hi hj
      omega) 1

/-! ## Decimal formatting lemmas (for `pad3`) -/

theorem digitChar_isDigit (d : Nat) (h : d < 10) : isDigitC (digitChar d) = true := by
  interval_cases d <;> decide

theorem digitChar_toNat (d : Nat) (h : d < 10) : (digitChar d).toNat - 48 = d := by
  interval_cases d <;> decide

theorem decReprAux_spec : ∀ (fuel m : Nat) (acc : List Char), m < fuel →
    decReprAux fuel m acc
      = (if m = 0 then ['0'] else (Nat.digits 10 m).reverse.map digitChar) ++ acc := by
  intro fuel
  induction fuel with
  | zero => intro m acc h; omega
  | succ fuel ih =>
    intro m acc h
    by_cases h10 : m < 10
    · rcases Nat.eq_zero_or_pos m with rfl | hm
      · simp [decReprAux]
        decide
      · have hm0 : m ≠ 0 := Nat.pos_iff_ne_zero.mp hm
        have hdig : Nat.digits 10 m = [m] := by
          rw [Nat.digits_def' (by norm_num : (1:ℕ) < 10) hm]
          simp [Nat.mod_eq_of_lt h10, Nat.div_eq_of_lt h10]
        simp [decReprAux, h10, hm0, hdig]
    · have hpos : 0 < m := by omega
      have hm0 : m ≠ 0 := by omega
      have h1d : 1 ≤ m / 10 := (Nat.one_le_div_iff (by norm_num)).mpr (by omega)
      have hdiv_lt : m / 10 < fuel := by
        have := Nat.div_lt_self hpos (show 1 < 10 by norm_num)
        omega
      have hstep : decReprAux (fuel + 1) m acc
          = decReprAux fuel (m / 10) (digitChar (m % 10) :: acc) := by
        simp [decReprAux, h10]
      rw [hstep, ih (m / 10) (digitChar (m % 10) :: acc) hdiv_lt]
      rw [if_neg (by omega : ¬ m / 10 = 0), if_neg hm0]
      rw [Nat.digits_def' (by norm_num : (1:ℕ) < 10) hpos]
      simp

theorem decRepr_spec (n : Nat) :
    decRepr n = if n = 0 then ['0'] else (Nat.digits 10 n).reverse.map digitChar := by
  have h := decReprAux_spec (n + 1) n [] (Nat.lt_succ_self n)
  simpa [decRepr] using h

theorem decRepr_ne_nil (n : Nat) : decRepr n ≠ [] := by
  rw [decRepr_spec]
  split
  · simp
  · rename_i h0
    simp [Nat.digits_ne_nil_iff_ne_zero.mpr h0]

theorem decRepr_length_le (n : Nat) (h : n ≤ 999) : (decRepr n).length ≤ 3 := by
  rw [decRepr_spec]
  split
  · simp
  · rename_i h0
    simp only [List.length_map, List.length_reverse]
    rw [Nat.digits_len 10 n (by norm_num) h0]
    have hlt : n < 10 ^ 3 := by norm_num; omega
    have := Nat.log_lt_of_lt_pow h0 hlt
    omega

theorem decRepr_all_digits (n : Nat) : ∀ c ∈ decRepr n, isDigitC c = true := by
  rw [decRepr_spec]
  split
  · intro c hc
    simp at hc
    subst hc
    decide
  · intro c hc
    simp only [List.mem_map, List.mem_reverse] at hc
    obtain ⟨d, hd, rfl⟩ := hc
    exact digitChar_isDigit d (Nat.digits_lt_base (by norm_num) hd)

theorem pad3_length (n : Nat) (h : n ≤ 999) : (pad3 n).length = 3 := by
  have h1 : 1 ≤ (decRepr n).length := by
    cases hr : decRepr n with
    | nil => exact absurd hr (decRepr_ne_nil n)
    | cons a l => simp
  have h3 := decRepr_length_le n h
  simp only [pad3, List.length_append, List.length_replicate]
  omega

theorem pad3_all_digits (n : Nat) : ∀ c ∈ pad3 n, isDigitC c = true := by
  intro c hc
  rcases List.mem_append.mp hc with hm | hm
  · rw [(List.mem_replicate.mp hm).2]
    decide
  · exact decRepr_all_digits n c hm

theorem digitsToNat_append_zeros (k : Nat) (s : List Char) :
    digitsToNat (List.replicate k '0' ++ s) = digitsToNat s := by
  unfold digitsToNat
  rw [List.foldl_append]
  have hz : List.foldl (fun a c => a * 10 + (c.toNat - 48)) 0 (List.replicate k '0')
      = 0 := by
    induction k with
    | zero => rfl
    | succ k ih =>
      rw [List.replicate_succ, List.foldl_cons]
      have h0 : (0 : Nat) * 10 + ('0'.toNat - 48) = 0 := by decide
      rw [h0, ih]
  rw [hz]

theorem foldr_ofDigits (ds : List Nat) :
    List.foldr (fun d acc => acc * 10 + d) 0 ds = Nat.ofDigits 10 ds := by
  induction ds with
  | nil => simp [Nat.ofDigits]
  | cons d ds ih =>
    rw [List.foldr_cons, ih, Nat.ofDigits_cons]
    ring

theorem foldr_digitChar (l : List Nat) (h : ∀ d ∈ l, d < 10) :
    List.foldr (fun d acc => acc * 10 + ((digitChar d).toNat - 48)) 0 l
      = List.foldr (fun d acc => acc * 10 + d) 0 l := by
  induction l with
  | nil => rfl
  | cons d l ih =>
    simp only [List.foldr_cons]
    rw [ih (fun x hx => h x (List.mem_cons_of_mem d hx)),
      digitChar_toNat d (h d (List.mem_cons_self d l))]

theorem digitsToNat_decRepr (n : Nat) : digitsToNat (decRepr n) = n := by
  rw [decRepr_spec]
  split
  · rename_i h0
    rw [h0]
    decide
  · rename_i h0
    unfold digitsToNat
    rw [List.foldl_map, List.foldl_reverse]
    have hcongr := foldr_digitChar (Nat.digits 10 n)
      (fun d hd => Nat.digits_lt_base (by norm_num) hd)
    rw [hcongr, foldr_ofDigits, Nat.ofDigits_digits]

theorem digitsToNat_pad3 (n : Nat) : digitsToNat (pad3 n) = n := by
  unfold pad3
  rw [digitsToNat_append_zeros, digitsToNat_decRepr]

theorem isDigitC_ne (c : Char) (h : isDigitC c = true) :
    c ≠ '-' ∧ c ≠ '.' ∧ c ≠ '?' := by
  refine ⟨fun e => ?_, fun e => ?_, fun e => ?_⟩ <;>
    (subst e; exact absurd h (by decide))

theorem isWordC_ne (c : Char) (h : isWordC c = true) :
    c ≠ '-' ∧ c ≠ '.' ∧ c ≠ '?' := by
  refine ⟨fun e => ?_, fun e => ?_, fun e => ?_⟩ <;>
    (subst e; exact absurd h (by decide))

/-! ## Characterization of the pattern matchers -/

theorem takeWhile_all_append (p : Char → Bool) (a : List Char) (x : Char)
    (r : List Char) (ha : ∀ c ∈ a, p c = true) (hx : p x = false) :
    (a ++ x :: r).takeWhile p = a ∧ (a ++ x :: r).dropWhile p = x :: r := by
  induction a with
  | nil => simp [List.takeWhile_cons, List.dropWhile_cons, hx]
  | cons c a ih =>
    have hc := ha c (List.mem_cons_self c a)
    have ih' := ih (fun d hd => ha d (List.mem_cons_of_mem _ hd))
    simp only [List.cons_append, List.takeWhile_cons, List.dropWhile_cons, hc]
    simp [ih'.1, ih'.2]

theorem patTail_eq_some (ds n3 w : List Char) (hds : ds ≠ [])
    (hdsd : ∀ c ∈ ds, isDigitC c = true) (hn3 : n3.length = 3)
    (hn3d : ∀ c ∈ n3, isDigitC c = true) (hw : w ≠ [])
    (hwd : ∀ c ∈ w, isWordC c = true) :
    patTail (ds ++ '-' :: (n3 ++ '.' :: w))
      = some (ds.length + 1, digitsToNat n3, '.' :: w) := by
  have htw := takeWhile_all_append isDigitC ds '-' (n3 ++ '.' :: w) hdsd (by decide)
  have htk : (n3 ++ '.' :: w).take 3 = n3 := by
    rw [← hn3]
    exact List.take_left n3 _
  have hdr : (n3 ++ '.' :: w).drop 3 = '.' :: w := by
    rw [← hn3]
    exact List.drop_left n3 _
  simp [patTail, htw.1, htw.2, htk, hdr, List.isEmpty_eq_false.mpr hds, hn3,
    List.all_eq_true.mpr hn3d, List.isEmpty_eq_false.mpr hw, List.all_eq_true.mpr hwd]

theorem patTail_inv (t : List Char) (k nn : Nat) (e : List Char)
    (h : patTail t = some (k, nn, e)) :
    ∃ ds n3 w, t = ds ++ '-' :: (n3 ++ '.' :: w) ∧ ds ≠ [] ∧
      (∀ c ∈ ds, isDigitC c = true) ∧ n3.length = 3 ∧
      (∀ c ∈ n3, isDigitC c = true) ∧ w ≠ [] ∧ (∀ c ∈ w, isWordC c = true) ∧
      k = ds.length + 1 ∧ nn = digitsToNat n3 ∧ e = '.' :: w := by
  unfold patTail at h
  split at h
  · exact absurd h (by simp)
  · rename_i hemp
    split at h
    · exact absurd h (by simp)
    · rename_i c r1 hr
      split at h
      · rename_i hc
        split at h
        · rename_i hcond
          split at h
          · exact absurd h (by simp)
          · rename_i d w' hdr
            split at h
            · rename_i hd
              split at h
              · rename_i hwcond
                simp only [Option.some.injEq, Prod.mk.injEq] at h
                obtain ⟨h1, h2, h3⟩ := h
                subst hc
                subst hd
                refine ⟨t.takeWhile isDigitC, r1.take 3, w', ?_, ?_, ?_, hcond.1,
                  ?_, ?_, ?_, h1.symm, h2.symm, h3.symm⟩
                · conv_lhs => rw [← List.takeWhile_append_dropWhile isDigitC t]
                  rw [hr]
                  congr 1
                  congr 1
                  conv_lhs => rw [← List.take_append_drop 3 r1]
                  rw [hdr]
                · simpa [List.isEmpty_iff] using hemp
                · exact fun c hc => List.mem_takeWhile_imp hc
                · exact List.all_eq_true.mp hcond.2
                · have hb := (Bool.and_eq_true _ _).mp hwcond
                  simpa [List.isEmpty_iff] using hb.1
                · have hb := (Bool.and_eq_true _ _).mp hwcond
                  exact List.all_eq_true.mp hb.2
              · exact absurd h (by simp)
            · exact absurd h (by simp)
        · exact absurd h (by simp)
      · exact absurd h (by simp)

theorem pat1Head_eq_some (d8 d6 tail : List Char)
    (hd8 : d8.length = 8) (hd8d : ∀ c ∈ d8, isDigitC c = true)
    (hd6 : d6.length = 6) (hd6d : ∀ c ∈ d6, isDigitC c = true) :
    pat1Head (d8 ++ 'T' :: (d6 ++ 'Z' :: '-' :: tail)) = some tail := by
  have ht8 : (d8 ++ 'T' :: (d6 ++ 'Z' :: '-' :: tail)).take 8 = d8 := by
    rw [← hd8]
    exact List.take_left _ _
  have hr8 : (d8 ++ 'T' :: (d6 ++ 'Z' :: '-' :: tail)).drop 8
      = 'T' :: (d6 ++ 'Z' :: '-' :: tail) := by
    rw [← hd8]
    exact List.drop_left _ _
  have ht6 : (d6 ++ 'Z' :: '-' :: tail).take 6 = d6 := by
    rw [← hd6]
    exact List.take_left _ _
  have hr6 : (d6 ++ 'Z' :: '-' :: tail).drop 6 = 'Z' :: '-' :: tail := by
    rw [← hd6]
    exact List.drop_left _ _
  simp [pat1Head, ht8, hr8, ht6, hr6, hd8, hd6,
    List.all_eq_true.mpr hd8d, List.all_eq_true.mpr hd6d]

theorem pat1Head_inv (t t2 : List Char) (h : pat1Head t = some t2) :
    ∃ d8 d6, t = d8 ++ 'T' :: (d6 ++ 'Z' :: '-' :: t2) ∧
      d8.length = 8 ∧ (∀ c ∈ d8, isDigitC c = true) ∧
      d6.length = 6 ∧ (∀ c ∈ d6, isDigitC c = true) := by
  unfold pat1Head at h
  split at h
  · rename_i hcond8
    split at h
    · exact absurd h (by simp)
    · rename_i c t1 hdr8
      split at h
      · rename_i hc
        split at h
        · rename_i hcond6
          split at h
          · rename_i c1 c2 t2' hdr6
            split at h
            · rename_i hzd
              simp only [Option.some.injEq] at h
              subst hc
              obtain ⟨hz, hd⟩ := hzd
              subst hz
              subst hd
              subst h
              refine ⟨t.take 8, t1.take 6, ?_, hcond8.1, List.all_eq_true.mp hcond8.2,
                hcond6.1, List.all_eq_true.mp hcond6.2⟩
              conv_lhs => rw [← List.take_append_drop 8 t]
              rw [hdr8]
              congr 2
              conv_lhs => rw [← List.take_append_drop 6 t1]
              rw [hdr6]
            · exact absurd h (by simp)
          · exact absurd h (by simp)
        · exact absurd h (by simp)
      · exact absurd h (by simp)
  · exact absurd h (by simp)

theorem pat1Parse_eq_some (d8 d6 ds n3 w : List Char)
    (hd8 : d8.length = 8) (hd8d : ∀ c ∈ d8, isDigitC c = true)
    (hd6 : d6.length = 6) (hd6d : ∀ c ∈ d6, isDigitC c = true)
    (hds : ds ≠ []) (hdsd : ∀ c ∈ ds, isDigitC c = true)
    (hn3 : n3.length = 3) (hn3d : ∀ c ∈ n3, isDigitC c = true)
    (hw : w ≠ []) (hwd : ∀ c ∈ w, isWordC c = true) :
    pat1Parse (litTakeout ++
        (d8 ++ 'T' :: (d6 ++ 'Z' :: '-' :: (ds ++ '-' :: (n3 ++ '.' :: w)))))
      = some (26 + ds.length, (digitsToNat n3, '.' :: w)) := by
  have ht : (litTakeout ++
      (d8 ++ 'T' :: (d6 ++ 'Z' :: '-' :: (ds ++ '-' :: (n3 ++ '.' :: w))))).take 8
      = litTakeout := by
    simp [litTakeout]
  have hr : (litTakeout ++
      (d8 ++ 'T' :: (d6 ++ 'Z' :: '-' :: (ds ++ '-' :: (n3 ++ '.' :: w))))).drop 8
      = d8 ++ 'T' :: (d6 ++ 'Z' :: '-' :: (ds ++ '-' :: (n3 ++ '.' :: w))) := by
    simp [litTakeout]
  simp [pat1Parse, ht, hr, pat1Head_eq_some d8 d6 _ hd8 hd8d hd6 hd6d,
    patTail_eq_some ds n3 w hds hdsd hn3 hn3d hw hwd]
  omega

theorem pat1Parse_inv (t : List Char) (bl nn : Nat) (e : List Char)
    (h : pat1Parse t = some (bl, nn, e)) :
    ∃ d8 d6 ds n3 w,
      t = litTakeout ++
        (d8 ++ 'T' :: (d6 ++ 'Z' :: '-' :: (ds ++ '-' :: (n3 ++ '.' :: w)))) ∧
      d8.length = 8 ∧ (∀ c ∈ d8, isDigitC c = true) ∧
      d6.length = 6 ∧ (∀ c ∈ d6, isDigitC c = true) ∧
      ds ≠ [] ∧ (∀ c ∈ ds, isDigitC c = true) ∧
      n3.length = 3 ∧ (∀ c ∈ n3, isDigitC c = true) ∧
      w ≠ [] ∧ (∀ c ∈ w, isWordC c = true) ∧
      bl = 26 + ds.length ∧ nn = digitsToNat n3 ∧ e = '.' :: w := by
  unfold pat1Parse at h
  split at h
  · rename_i ht8
    split at h
    · rename_i t2 hhead
      split at h
      · rename_i k n ext htail
        simp only [Option.some.injEq, Prod.mk.injEq] at h
        obtain ⟨hbl, hnn, he⟩ := h
        obtain ⟨d8, d6, hteq, h8, h8d, h6, h6d⟩ := pat1Head_inv (t.drop 8) t2 hhead
        obtain ⟨ds, n3, w, ht2, hds, hdsd, hn3, hn3d, hw, hwd, hk, hn, hext⟩ :=
          patTail_inv t2 k n ext htail
        refine ⟨d8, d6, ds, n3, w, ?_, h8, h8d, h6, h6d, hds, hdsd, hn3, hn3d, hw, hwd,
          by omega, by rw [← hnn, hn], by rw [← he, hext]⟩
        conv_lhs => rw [← List.take_append_drop 8 t]
        rw [ht8, hteq, ht2]
      · exact absurd h (by simp)
    · exact absurd h (by simp)
  · exact absurd h (by simp)

theorem pat2Parse_eq_some (x ds n3 w : List Char)
    (hx : x ≠ []) (hxd : ∀ c ∈ x, (c != '-') = true)
    (hds : ds ≠ []) (hdsd : ∀ c ∈ ds, isDigitC c = true)
    (hn3 : n3.length = 3) (hn3d : ∀ c ∈ n3, isDigitC c = true)
    (hw : w ≠ []) (hwd : ∀ c ∈ w, isWordC c = true) :
    pat2Parse (litTakeout ++ (x ++ '-' :: (ds ++ '-' :: (n3 ++ '.' :: w))))
      = some (8 + x.length + 1 + (ds.length + 1), (digitsToNat n3, '.' :: w)) := by
  have ht : (litTakeout ++ (x ++ '-' :: (ds ++ '-' :: (n3 ++ '.' :: w)))).take 8
      = litTakeout := by
    simp [litTakeout]
  have hr : (litTakeout ++ (x ++ '-' :: (ds ++ '-' :: (n3 ++ '.' :: w)))).drop 8
      = x ++ '-' :: (ds ++ '-' :: (n3 ++ '.' :: w)) := by
    simp [litTakeout]
  have htw := takeWhile_all_append (fun c => c != '-') x '-'
    (ds ++ '-' :: (n3 ++ '.' :: w)) hxd (by decide)
  simp [pat2Parse, ht, hr, htw.1, htw.2, List.isEmpty_eq_false.mpr hx,
    patTail_eq_some ds n3 w hds hdsd hn3 hn3d hw hwd]

theorem pat2Parse_inv (t : List Char) (bl nn : Nat) (e : List Char)
    (h : pat2Parse t = some (bl, nn, e)) :
    ∃ x ds n3 w,
      t = litTakeout ++ (x ++ '-' :: (ds ++ '-' :: (n3 ++ '.' :: w))) ∧
      x ≠ [] ∧ (∀ c ∈ x, (c != '-') = true) ∧
      ds ≠ [] ∧ (∀ c ∈ ds, isDigitC c = true) ∧
      n3.length = 3 ∧ (∀ c ∈ n3, isDigitC c = true) ∧
      w ≠ [] ∧ (∀ c ∈ w, isWordC c = true) ∧
      bl = 8 + x.length + 1 + (ds.length + 1) ∧
      nn = digitsToNat n3 ∧ e = '.' :: w := by
  unfold pat2Parse at h
  split at h
  · rename_i ht8
    split at h
    · exact absurd h (by simp)
    · rename_i hemp
      split at h
      · exact absurd h (by simp)
      · rename_i c r1 hdw
        split at h
        · rename_i hc
          split at h
          · rename_i k n ext htail
            simp only [Option.some.injEq, Prod.mk.injEq] at h
            obtain ⟨hbl, hnn, he⟩ := h
            obtain ⟨ds, n3, w, hr1, hds, hdsd, hn3, hn3d, hw, hwd, hk, hn, hext⟩ :=
              patTail_inv r1 k n ext htail
            subst hc
            refine ⟨(t.drop 8).takeWhile (fun c => c != '-'), ds, n3, w, ?_,
              by simpa [List.isEmpty_iff] using hemp,
              (fun c hc => @List.mem_takeWhile_imp Char (fun c => c != '-')
                (t.drop 8) c hc),
              hds, hdsd, hn3, hn3d, hw, hwd, by omega,
              by rw [← hnn, hn], by rw [← he, hext]⟩
            conv_lhs => rw [← List.take_append_drop 8 t]
            rw [ht8]
            congr 1
            conv_lhs =>
              rw [← List.takeWhile_append_dropWhile (fun c => c != '-') (t.drop 8)]
            rw [hdw, hr1]
          · exact absurd h (by simp)
        · exact absurd h (by simp)
  · exact absurd h (by simp)

/-! ## Uniqueness of the extension split and the tail-exchange lemmas -/

theorem splitAtFirst_unique (ch : Char) :
    ∀ (x1 x2 y1 y2 : List Char), ch ∉ x1 → ch ∉ x2 →
      x1 ++ ch :: y1 = x2 ++ ch :: y2 → x1 = x2 ∧ y1 = y2 := by
  intro x1
  induction x1 with
  | nil =>
    intro x2 y1 y2 h1 h2 he
    cases x2 with
    | nil => simpa using he
    | cons b bs =>
      simp only [List.nil_append, List.cons_append, List.cons.injEq] at he
      exact absurd (by rw [he.1]; exact List.mem_cons_self b bs) h2
  | cons a as ih =>
    intro x2 y1 y2 h1 h2 he
    cases x2 with
    | nil =>
      simp only [List.nil_append, List.cons_append, List.cons.injEq] at he
      exact absurd (by rw [← he.1]; exact List.mem_cons_self a as) h1
    | cons b bs =>
      simp only [List.cons_append, List.cons.injEq] at he
      have hr := ih bs y1 y2 (fun hm => h1 (List.mem_cons_of_mem a hm))
        (fun hm => h2 (List.mem_cons_of_mem b hm)) he.2
      exact ⟨by rw [he.1, hr.1], hr.2⟩

theorem splitAtLast_unique (ch : Char) (a1 a2 w1 w2 : List Char)
    (h : a1 ++ ch :: w1 = a2 ++ ch :: w2) (hw1 : ch ∉ w1) (hw2 : ch ∉ w2) :
    a1 = a2 ∧ w1 = w2 := by
  have hrev : w1.reverse ++ ch :: a1.reverse = w2.reverse ++ ch :: a2.reverse := by
    have hc := congrArg List.reverse h
    simp only [List.reverse_append, List.reverse_cons, List.append_assoc] at hc
    simpa using hc
  have hr := splitAtFirst_unique ch w1.reverse w2.reverse a1.reverse a2.reverse
    (by simpa using hw1) (by simpa using hw2) hrev
  exact ⟨List.reverse_inj.mp hr.2, List.reverse_inj.mp hr.1⟩

theorem pat1_exchange (A m0 m1 w : List Char) (bl nn : Nat) (e : List Char)
    (hm0l : m0.length = 3) (hm1l : m1.length = 3)
    (hm1d : ∀ c ∈ m1, isDigitC c = true)
    (hw : w ≠ []) (hwd : ∀ c ∈ w, isWordC c = true)
    (h : pat1Parse (A ++ (m0 ++ '.' :: w)) = some (bl, nn, e)) :
    pat1Parse (A ++ (m1 ++ '.' :: w)) = some (bl, (digitsToNat m1, '.' :: w)) ∧
      nn = digitsToNat m0 ∧ e = '.' :: w ∧ bl = A.length := by
  obtain ⟨d8, d6, ds, n3, wm, hteq, h8, h8d, h6, h6d, hds, hdsd, hn3, hn3d, hwm,
    hwmd, hbl, hnn, he⟩ := pat1Parse_inv _ _ _ _ h
  have heq : (A ++ m0) ++ '.' :: w
      = ((((litTakeout ++ d8) ++ ('T' :: d6)) ++ ('Z' :: '-' :: ds)) ++ ('-' :: n3))
          ++ '.' :: wm := by
    rw [List.append_assoc, hteq]
    simp [List.append_assoc]
  have hdotw : '.' ∉ w := fun hm => (isWordC_ne _ (hwd _ hm)).2.1 rfl
  have hdotwm : '.' ∉ wm := fun hm => (isWordC_ne _ (hwmd _ hm)).2.1 rfl
  obtain ⟨hpre, hww⟩ := splitAtLast_unique '.' (A ++ m0) _ w wm heq hdotw hdotwm
  have hpre2 : A ++ m0
      = ((((litTakeout ++ d8) ++ ('T' :: d6)) ++ ('Z' :: '-' :: ds)) ++ ['-'])
          ++ n3 := by
    rw [hpre]
    simp [List.append_assoc]
  obtain ⟨hA, hm0n3⟩ := List.append_inj' hpre2 (by rw [hm0l, hn3])
  have hnew : A ++ (m1 ++ '.' :: w)
      = litTakeout ++
          (d8 ++ 'T' :: (d6 ++ 'Z' :: '-' :: (ds ++ '-' :: (m1 ++ '.' :: w)))) := by
    rw [hA]
    simp [List.append_assoc]
  refine ⟨?_, ?_, ?_, ?_⟩
  · rw [hnew, pat1Parse_eq_some d8 d6 ds m1 w h8 h8d h6 h6d hds hdsd hm1l hm1d hw hwd,
      hbl]
  · rw [hnn, hm0n3]
  · rw [he, hww]
  · rw [hbl, hA]
    simp [List.length_append, h8, h6, litTakeout]
    omega

theorem pat2_exchange (A m0 m1 w : List Char) (bl nn : Nat) (e : List Char)
    (hm0l : m0.length = 3) (hm1l : m1.length = 3)
    (hm1d : ∀ c ∈ m1, isDigitC c = true)
    (hw : w ≠ []) (hwd : ∀ c ∈ w, isWordC c = true)
    (h : pat2Parse (A ++ (m0 ++ '.' :: w)) = some (bl, nn, e)) :
    pat2Parse (A ++ (m1 ++ '.' :: w)) = some (bl, (digitsToNat m1, '.' :: w)) ∧
      nn = digitsToNat m0 ∧ e = '.' :: w ∧ bl = A.length := by
  obtain ⟨x, ds, n3, wm, hteq, hx, hxd, hds, hdsd, hn3, hn3d, hwm, hwmd, hbl, hnn, he⟩ :=
    pat2Parse_inv _ _ _ _ h
  have heq : (A ++ m0) ++ '.' :: w
      = (((litTakeout ++ x) ++ ('-' :: ds)) ++ ('-' :: n3)) ++ '.' :: wm := by
    rw [List.append_assoc, hteq]
    simp [List.append_assoc]
  have hdotw : '.' ∉ w := fun hm => (isWordC_ne _ (hwd _ hm)).2.1 rfl
  have hdotwm : '.' ∉ wm := fun hm => (isWordC_ne _ (hwmd _ hm)).2.1 rfl
  obtain ⟨hpre, hww⟩ := splitAtLast_unique '.' (A ++ m0) _ w wm heq hdotw hdotwm
  have hpre2 : A ++ m0
      = (((litTakeout ++ x) ++ ('-' :: ds)) ++ ['-']) ++ n3 := by
    rw [hpre]
    simp [List.append_assoc]
  obtain ⟨hA, hm0n3⟩ := List.append_inj' hpre2 (by rw [hm0l, hn3])
  have hnew : A ++ (m1 ++ '.' :: w)
      = litTakeout ++ (x ++ '-' :: (ds ++ '-' :: (m1 ++ '.' :: w))) := by
    rw [hA]
    simp [List.append_assoc]
  refine ⟨?_, ?_, ?_, ?_⟩
  · rw [hnew, pat2Parse_eq_some x ds m1 w hx hxd hds hdsd hm1l hm1d hw hwd, hbl]
  · rw [hnn, hm0n3]
  · rw [he, hww]
  · rw [hbl, hA]
    simp [List.length_append, litTakeout]
    omega

theorem pat1Parse_none_of_no_dash (t : List Char) (h : '-' ∉ t) :
    pat1Parse t = none := by
  unfold pat1Parse
  rw [if_neg]
  intro he
  have hm : '-' ∈ t.take 8 := by rw [he]; decide
  exact h (List.mem_of_mem_take hm)

theorem pat2Parse_none_of_no_dash (t : List Char) (h : '-' ∉ t) :
    pat2Parse t = none := by
  unfold pat2Parse
  rw [if_neg]
  intro he
  have hm : '-' ∈ t.take 8 := by rw [he]; decide
  exact h (List.mem_of_mem_take hm)

/-! ## Specification of the right-to-left scan -/

theorem scanDown_eq_some {a : Type} (f : Nat → Option a) :
    ∀ (n p : Nat) (r : a), scanDown f n = some (p, r)
      ↔ (p ≤ n ∧ f p = some r ∧ ∀ q, p < q → q ≤ n → f q = none) := by
  intro n
  induction n with
  | zero =>
    intro p r
    constructor
    · intro h
      rw [scanDown] at h
      cases hf : f 0 with
      | none => rw [hf] at h; exact absurd h (by simp)
      | some r0 =>
        rw [hf] at h
        simp only [Option.map_some', Option.some.injEq, Prod.mk.injEq] at h
        obtain ⟨hp, hr⟩ := h
        subst hp
        subst hr
        exact ⟨Nat.le_refl 0, hf, fun q hq1 hq2 => by omega⟩
    · rintro ⟨hp, hfp, _⟩
      have hp0 : p = 0 := by omega
      subst hp0
      rw [scanDown, hfp]
      rfl
  | succ n ih =>
    intro p r
    constructor
    · intro h
      rw [scanDown] at h
      cases hf : f (n + 1) with
      | some r0 =>
        rw [hf] at h
        simp only [Option.some.injEq, Prod.mk.injEq] at h
        obtain ⟨hp, hr⟩ := h
        subst hp
        subst hr
        exact ⟨Nat.le_refl _, hf, fun q hq1 hq2 => by omega⟩
      | none =>
        rw [hf] at h
        have hs := (ih p r).mp h
        refine ⟨by omega, hs.2.1, ?_⟩
        intro q hq1 hq2
        rcases Nat.lt_or_ge q (n + 1) with hlt | hge
        · exact hs.2.2 q hq1 (by omega)
        · have hq : q = n + 1 := by omega
          rw [hq, hf]
    · rintro ⟨hp, hfp, hnone⟩
      rcases Nat.lt_or_ge p (n + 1) with hlt | hge
      · have hf1 : f (n + 1) = none := hnone (n + 1) (by omega) (by omega)
        rw [scanDown, hf1]
        exact (ih p r).mpr ⟨by omega, hfp, fun q h1 h2 => hnone q h1 (by omega)⟩
      · have hp1 : p = n + 1 := by omega
        subst hp1
        rw [scanDown, hfp]

theorem scanDown_eq_none {a : Type} (f : Nat → Option a) :
    ∀ n : Nat, scanDown f n = none ↔ ∀ q, q ≤ n → f q = none := by
  intro n
  induction n with
  | zero =>
    constructor
    · intro h q hq
      have hq0 : q = 0 := by omega
      subst hq0
      cases hf : f 0 with
      | none => rfl
      | some r => rw [scanDown, hf] at h; exact absurd h (by simp)
    · intro h
      rw [scanDown, h 0 (Nat.le_refl 0)]
      rfl
  | succ n ih =>
    constructor
    · intro h q hq
      rw [scanDown] at h
      cases hf : f (n + 1) with
      | some r => rw [hf] at h; exact absurd h (by simp)
      | none =>
        rw [hf] at h
        rcases Nat.lt_or_ge q (n + 1) with hlt | hge
        · exact (ih.mp h) q (by omega)
        · have hq1 : q = n + 1 := by omega
          rw [hq1, hf]
    · intro h
      rw [scanDown, h (n + 1) (Nat.le_refl _)]
      exact ih.mpr (fun q hq => h q (by omega))

/-! ## Query-string splitting -/

theorem splitFirst_eq_none (sep : Char) :
    ∀ l : List Char, splitFirst sep l = none ↔ sep ∉ l := by
  intro l
  induction l with
  | nil => simp [splitFirst]
  | cons c cs ih =>
    rw [splitFirst]
    by_cases hc : c = sep
    · subst hc
      simp
    · rw [if_neg hc]
      cases hs : splitFirst sep cs with
      | some ab =>
        obtain ⟨a, b⟩ := ab
        have hmem : sep ∈ cs := by
          by_contra hnm
          rw [ih.mpr hnm] at hs
          exact Option.noConfusion hs
        simp [hmem]
      | none =>
        have hsep : sep ≠ c := fun e => hc e.symm
        simp [List.mem_cons, hsep, ih.mp hs]

theorem splitFirst_eq_some (sep : Char) :
    ∀ (l a b : List Char), splitFirst sep l = some (a, b) →
      l = a ++ sep :: b ∧ sep ∉ a := by
  intro l
  induction l with
  | nil => intro a b h; simp [splitFirst] at h
  | cons c cs ih =>
    intro a b h
    rw [splitFirst] at h
    by_cases hc : c = sep
    · subst hc
      rw [if_pos rfl] at h
      simp only [Option.some.injEq, Prod.mk.injEq] at h
      obtain ⟨ha, hb⟩ := h
      subst ha
      subst hb
      exact ⟨rfl, by simp⟩
    · rw [if_neg hc] at h
      cases hs : splitFirst sep cs with
      | none => rw [hs] at h; exact absurd h (by simp)
      | some ab =>
        obtain ⟨a1, b1⟩ := ab
        rw [hs] at h
        simp only [Option.some.injEq, Prod.mk.injEq] at h
        obtain ⟨ha, hb⟩ := h
        subst ha
        subst hb
        have hr := ih a1 b1 hs
        refine ⟨by rw [List.cons_append, hr.1], ?_⟩
        intro hm
        rcases List.mem_cons.mp hm with he | hm2
        · exact hc he.symm
        · exact hr.2 hm2

theorem splitFirst_append (sep : Char) :
    ∀ (x q : List Char), sep ∉ x → splitFirst sep (x ++ sep :: q) = some (x, q) := by
  intro x
  induction x with
  | nil => intro q h; simp [splitFirst]
  | cons c cs ih =>
    intro q h
    have hc : ¬ c = sep := fun e => h (by rw [e]; exact List.mem_cons_self sep cs)
    rw [List.cons_append, splitFirst, if_neg hc,
      ih q (fun hm => h (List.mem_cons_of_mem c hm))]

theorem splitQuery_no_mark (url : List Char) : '?' ∉ (splitQuery url).1 := by
  unfold splitQuery
  cases hs : splitFirst '?' url with
  | none => simpa using (splitFirst_eq_none '?' url).mp hs
  | some pq =>
    obtain ⟨a, b⟩ := pq
    simpa using (splitFirst_eq_some '?' url a b hs).2

theorem splitQuery_of_clean (x : List Char) (h : '?' ∉ x) : splitQuery x = (x, []) := by
  unfold splitQuery
  rw [(splitFirst_eq_none '?' x).mpr h]

theorem splitQuery_append_query (x q : List Char) (h : '?' ∉ x) :
    splitQuery (x ++ '?' :: q) = (x, q) := by
  unfold splitQuery
  rw [splitFirst_append '?' x q h]

/-! ## Round-trip of `extract_url_parts` and `get_url` -/

theorem no_dash_in_tail (m polyext : List Char) (w : List Char)
    (hmd : ∀ c ∈ m, isDigitC c = true) (hwd : ∀ c ∈ w, isWordC c = true)
    (he : polyext = '.' :: w) : '-' ∉ m ++ polyext := by
  subst he
  intro hm
  rcases List.mem_append.mp hm with h | h
  · exact (isDigitC_ne _ (hmd _ h)).1 rfl
  · rcases List.mem_cons.mp h with h | h
    · exact absurd h (by decide)
    · exact (isWordC_ne _ (hwd _ h)).1 rfl

theorem pat1_scan_exchange_none (base m0 m1 w : List Char) (q : Nat)
    (hm0l : m0.length = 3) (hm0d : ∀ c ∈ m0, isDigitC c = true)
    (hm1l : m1.length = 3) (hm1d : ∀ c ∈ m1, isDigitC c = true)
    (hw : w ≠ []) (hwd : ∀ c ∈ w, isWordC c = true)
    (hold : pat1Parse ((base ++ (m0 ++ '.' :: w)).drop q) = none) :
    pat1Parse ((base ++ (m1 ++ '.' :: w)).drop q) = none := by
  rcases Nat.le_total q base.length with hle | hgt
  · rw [List.drop_append_of_le_length hle] at hold ⊢
    cases hr : pat1Parse (base.drop q ++ (m1 ++ '.' :: w)) with
    | none => rfl
    | some r =>
      obtain ⟨bl2, nn2, e2⟩ := r
      obtain ⟨hx1, -, -, -⟩ :=
        pat1_exchange (base.drop q) m1 m0 w bl2 nn2 e2 hm1l hm0l hm0d hw hwd hr
      rw [hx1] at hold
      exact Option.noConfusion hold
  · have h1 : (base ++ (m1 ++ '.' :: w)).drop q
        = (m1 ++ '.' :: w).drop (q - base.length) := by
      rw [List.drop_append_eq_append_drop, List.drop_eq_nil_of_le hgt,
        List.nil_append]
    rw [h1]
    apply pat1Parse_none_of_no_dash
    intro hm
    exact no_dash_in_tail m1 ('.' :: w) w hm1d hwd rfl (List.mem_of_mem_drop hm)

theorem pat2_scan_exchange_none (base m0 m1 w : List Char) (q : Nat)
    (hm0l : m0.length = 3) (hm0d : ∀ c ∈ m0, isDigitC c = true)
    (hm1l : m1.length = 3) (hm1d : ∀ c ∈ m1, isDigitC c = true)
    (hw : w ≠ []) (hwd : ∀ c ∈ w, isWordC c = true)
    (hold : pat2Parse ((base ++ (m0 ++ '.' :: w)).drop q) = none) :
    pat2Parse ((base ++ (m1 ++ '.' :: w)).drop q) = none := by
  rcases Nat.le_total q base.length with hle | hgt
  · rw [List.drop_append_of_le_length hle] at hold ⊢
    cases hr : pat2Parse (base.drop q ++ (m1 ++ '.' :: w)) with
    | none => rfl
    | some r =>
      obtain ⟨bl2, nn2, e2⟩ := r
      obtain ⟨hx1, -, -, -⟩ :=
        pat2_exchange (base.drop q) m1 m0 w bl2 nn2 e2 hm1l hm0l hm0d hw hwd hr
      rw [hx1] at hold
      exact Option.noConfusion hold
  · have h1 : (base ++ (m1 ++ '.' :: w)).drop q
        = (m1 ++ '.' :: w).drop (q - base.length) := by
      rw [List.drop_append_eq_append_drop, List.drop_eq_nil_of_le hgt,
        List.nil_append]
    rw [h1]
    apply pat2Parse_none_of_no_dash
    intro hm
    exact no_dash_in_tail m1 ('.' :: w) w hm1d hwd rfl (List.mem_of_mem_drop hm)

theorem splitQuery_get_url (parts : UrlParts) (n : Nat)
    (hb : '?' ∉ parts.base) (hpq : '?' ∉ pad3 n) (hne : '?' ∉ parts.ext) :
    splitQuery (get_url parts n)
      = (parts.base ++ (pad3 n ++ parts.ext), parts.query) := by
  have hfront : '?' ∉ parts.base ++ (pad3 n ++ parts.ext) := by
    intro hm
    rcases List.mem_append.mp hm with h | h
    · exact hb h
    · rcases List.mem_append.mp h with h | h
      · exact hpq h
      · exact hne h
  by_cases hqe : parts.query.isEmpty
  · have hq : parts.query = [] := List.isEmpty_iff.mp hqe
    have hgu : get_url parts n = parts.base ++ (pad3 n ++ parts.ext) := by
      simp [get_url, hqe, List.append_assoc]
    rw [hgu, splitQuery_of_clean _ hfront, hq]
  · have hgu : get_url parts n
        = (parts.base ++ (pad3 n ++ parts.ext)) ++ '?' :: parts.query := by
      simp [get_url, hqe, List.append_assoc]
    rw [hgu, splitQuery_append_query _ _ hfront]

theorem roundtrip_case1 (url : List Char) (n p bl nn : Nat) (e : List Char)
    (h9 : n ≤ 999)
    (hscan1 : scanDown (fun q => pat1Parse ((splitQuery url).1.drop q))
        (splitQuery url).1.length = some (p, (bl, (nn, e)))) :
    extract_url_parts
        (get_url ⟨(splitQuery url).1.take (p + bl), nn, e, (splitQuery url).2⟩ n)
      = some ⟨(splitQuery url).1.take (p + bl), n, e, (splitQuery url).2⟩ := by
  set path := (splitQuery url).1 with hpathdef
  set query := (splitQuery url).2 with hquerydef
  obtain ⟨hple, hfp, hnone⟩ :=
    (scanDown_eq_some (fun q => pat1Parse (path.drop q)) path.length p
      (bl, (nn, e))).mp hscan1
  have hfp' : pat1Parse (path.drop p) = some (bl, (nn, e)) := hfp
  have hnone' : ∀ q, p < q → q ≤ path.length → pat1Parse (path.drop q) = none :=
    hnone
  obtain ⟨d8, d6, ds, n3, w, hteq, h8, h8d, h6, h6d, hds, hdsd, hn3l, hn3d, hw, hwd,
    hbl, hnn, he⟩ := pat1Parse_inv _ _ _ _ hfp'
  set PRE := (((litTakeout ++ d8) ++ ('T' :: d6)) ++ ('Z' :: '-' :: ds)) ++ ['-']
    with hPREdef
  have hdropflat : path.drop p = PRE ++ (n3 ++ '.' :: w) := by
    rw [hteq, hPREdef]
    simp [List.append_assoc]
  have hPRElen : PRE.length = bl := by
    rw [hPREdef, hbl]
    simp [litTakeout, List.length_append, h8, h6]
    omega
  have hp_take_len : (path.take p).length = p := by
    rw [List.length_take]
    exact min_eq_left hple
  have hpatheq : path = path.take p ++ (PRE ++ (n3 ++ '.' :: w)) := by
    conv_lhs => rw [← List.take_append_drop p path]
    rw [hdropflat]
  have hbase_eq : path.take (p + bl) = path.take p ++ PRE := by
    conv_lhs => rw [hpatheq]
    rw [← List.append_assoc]
    have hlen : (path.take p ++ PRE).length = p + bl := by
      simp [List.length_append, hp_take_len, hPRElen]
    rw [← hlen, List.take_left]
  have hbase_len : (path.take (p + bl)).length = p + bl := by
    rw [hbase_eq]
    simp [List.length_append, hp_take_len, hPRElen]
  have hpath_base : path = path.take (p + bl) ++ (n3 ++ '.' :: w) := by
    rw [hbase_eq, List.append_assoc]
    exact hpatheq
  have hplen := pad3_length n h9
  have hpdig := pad3_all_digits n
  have hnoq_path : '?' ∉ path := by
    rw [hpathdef]
    exact splitQuery_no_mark url
  have hnoq_base : '?' ∉ path.take (p + bl) :=
    fun hm => hnoq_path (List.mem_of_mem_take hm)
  have hnoq_pad : '?' ∉ pad3 n := fun hm => (isDigitC_ne _ (hpdig _ hm)).2.2 rfl
  have hnoq_e : '?' ∉ e := by
    rw [he]
    intro hm
    rcases List.mem_cons.mp hm with hq | hq
    · exact absurd hq (by decide)
    · exact (isWordC_ne _ (hwd _ hq)).2.2 rfl
  have hsq := splitQuery_get_url ⟨path.take (p + bl), nn, e, query⟩ n hnoq_base
    hnoq_pad hnoq_e
  set newPath := path.take (p + bl) ++ (pad3 n ++ e) with hnewdef
  have hnew_len : newPath.length = path.length := by
    rw [hnewdef]
    conv_rhs => rw [hpath_base]
    simp [List.length_append, hplen, hn3l, he]
  have hdrop_base : (path.take (p + bl)).drop p = PRE := by
    rw [hbase_eq, List.drop_append_of_le_length (by simp [hp_take_len]),
      List.drop_eq_nil_of_le (by simp [hp_take_len]), List.nil_append]
  have hdrop_new_p : newPath.drop p = PRE ++ (pad3 n ++ '.' :: w) := by
    rw [hnewdef, List.drop_append_of_le_length (by rw [hbase_len]; omega),
      hdrop_base, he]
  have hold_p : pat1Parse (PRE ++ (n3 ++ '.' :: w)) = some (bl, (nn, e)) := by
    rw [← hdropflat]
    exact hfp'
  obtain ⟨hnew_p, -, -, -⟩ :=
    pat1_exchange PRE n3 (pad3 n) w bl nn e hn3l hplen hpdig hw hwd hold_p
  have hnew_scan : scanDown (fun q => pat1Parse (newPath.drop q)) newPath.length
      = some (p, (bl, (n, '.' :: w))) := by
    apply (scanDown_eq_some (fun q => pat1Parse (newPath.drop q)) newPath.length p
      (bl, (n, '.' :: w))).mpr
    refine ⟨by rw [hnew_len]; exact hple, ?_, ?_⟩
    · show pat1Parse (newPath.drop p) = _
      rw [hdrop_new_p, hnew_p, digitsToNat_pad3]
    · intro q hq1 hq2
      show pat1Parse (newPath.drop q) = none
      have hold_q : pat1Parse ((path.take (p + bl) ++ (n3 ++ '.' :: w)).drop q)
          = none := by
        rw [← hpath_base]
        exact hnone' q hq1 (by rw [← hnew_len]; exact hq2)
      have hnew_q := pat1_scan_exchange_none (path.take (p + bl)) n3 (pad3 n) w q
        hn3l hn3d hplen hpdig hw hwd hold_q
      rw [hnewdef, he]
      exact hnew_q
  have htake_new : newPath.take (p + bl) = path.take (p + bl) := by
    rw [hnewdef, List.take_append_of_le_length (le_of_eq hbase_len.symm),
      List.take_of_length_le (le_of_eq hbase_len)]
  unfold extract_url_parts
  rw [hsq]
  dsimp only
  rw [hnew_scan]
  dsimp only
  rw [htake_new, he]

theorem roundtrip_case2 (url : List Char) (n p bl nn : Nat) (e : List Char)
    (h9 : n ≤ 999)
    (hscan1 : scanDown (fun q => pat1Parse ((splitQuery url).1.drop q))
        (splitQuery url).1.length = none)
    (hscan2 : scanDown (fun q => pat2Parse ((splitQuery url).1.drop q))
        (splitQuery url).1.length = some (p, (bl, (nn, e)))) :
    extract_url_parts
        (get_url ⟨(splitQuery url).1.take (p + bl), nn, e, (splitQuery url).2⟩ n)
      = some ⟨(splitQuery url).1.take (p + bl), n, e, (splitQuery url).2⟩ := by
  set path := (splitQuery url).1 with hpathdef
  set query := (splitQuery url).2 with hquerydef
  obtain ⟨hple, hfp, hnone⟩ :=
    (scanDown_eq_some (fun q => pat2Parse (path.drop q)) path.length p
      (bl, (nn, e))).mp hscan2
  have hfp' : pat2Parse (path.drop p) = some (bl, (nn, e)) := hfp
  have hnone' : ∀ q, p < q → q ≤ path.length → pat2Parse (path.drop q) = none :=
    hnone
  have hall1 : ∀ q, q ≤ path.length → pat1Parse (path.drop q) = none :=
    (scanDown_eq_none (fun q => pat1Parse (path.drop q)) path.length).mp hscan1
  obtain ⟨x, ds, n3, w, hteq, hx, hxd, hds, hdsd, hn3l, hn3d, hw, hwd,
    hbl, hnn, he⟩ := pat2Parse_inv _ _ _ _ hfp'
  set PRE := ((litTakeout ++ x) ++ ('-' :: ds)) ++ ['-'] with hPREdef
  have hdropflat : path.drop p = PRE ++ (n3 ++ '.' :: w) := by
    rw [hteq, hPREdef]
    simp [List.append_assoc]
  have hPRElen : PRE.length = bl := by
    rw [hPREdef, hbl]
    simp [litTakeout, List.length_append]
    omega
  have hp_take_len : (path.take p).length = p := by
    rw [List.length_take]
    exact min_eq_left hple
  have hpatheq : path = path.take p ++ (PRE ++ (n3 ++ '.' :: w)) := by
    conv_lhs => rw [← List.take_append_drop p path]
    rw [hdropflat]
  have hbase_eq : path.take (p + bl) = path.take p ++ PRE := by
    conv_lhs => rw [hpatheq]
    rw [← List.append_assoc]
    have hlen : (path.take p ++ PRE).length = p + bl := by
      simp [List.length_append, hp_take_len, hPRElen]
    rw [← hlen, List.take_left]
  have hbase_len : (path.take (p + bl)).length = p + bl := by
    rw [hbase_eq]
    simp [List.length_append, hp_take_len, hPRElen]
  have hpath_base : path = path.take (p + bl) ++ (n3 ++ '.' :: w) := by
    rw [hbase_eq, List.append_assoc]
    exact hpatheq
  have hplen := pad3_length n h9
  have hpdig := pad3_all_digits n
  have hnoq_path : '?' ∉ path := by
    rw [hpathdef]
    exact splitQuery_no_mark url
  have hnoq_base : '?' ∉ path.take (p + bl) :=
    fun hm => hnoq_path (List.mem_of_mem_take hm)
  have hnoq_pad : '?' ∉ pad3 n := fun hm => (isDigitC_ne _ (hpdig _ hm)).2.2 rfl
  have hnoq_e : '?' ∉ e := by
    rw [he]
    intro hm
    rcases List.mem_cons.mp hm with hq | hq
    · exact absurd hq (by decide)
    · exact (isWordC_ne _ (hwd _ hq)).2.2 rfl
  have hsq := splitQuery_get_url ⟨path.take (p + bl), nn, e, query⟩ n hnoq_base
    hnoq_pad hnoq_e
  set newPath := path.take (p + bl) ++ (pad3 n ++ e) with hnewdef
  have hnew_len : newPath.length = path.length := by
    rw [hnewdef]
    conv_rhs => rw [hpath_base]
    simp [List.length_append, hplen, hn3l, he]
  have hdrop_base : (path.take (p + bl)).drop p = PRE := by
    rw [hbase_eq, List.drop_append_of_le_length (by simp [hp_take_len]),
      List.drop_eq_nil_of_le (by simp [hp_take_len]), List.nil_append]
  have hdrop_new_p : newPath.drop p = PRE ++ (pad3 n ++ '.' :: w) := by
    rw [hnewdef, List.drop_append_of_le_length (by rw [hbase_len]; omega),
      hdrop_base, he]
  have hold_p : pat2Parse (PRE ++ (n3 ++ '.' :: w)) = some (bl, (nn, e)) := by
    rw [← hdropflat]
    exact hfp'
  obtain ⟨hnew_p, -, -, -⟩ :=
    pat2_exchange PRE n3 (pad3 n) w bl nn e hn3l hplen hpdig hw hwd hold_p
  have hnew_scan1 : scanDown (fun q => pat1Parse (newPath.drop q)) newPath.length
      = none := by
    apply (scanDown_eq_none (fun q => pat1Parse (newPath.drop q)) newPath.length).mpr
    intro q hq
    show pat1Parse (newPath.drop q) = none
    have hold_q : pat1Parse ((path.take (p + bl) ++ (n3 ++ '.' :: w)).drop q)
        = none := by
      rw [← hpath_base]
      exact hall1 q (by rw [← hnew_len]; exact hq)
    have hnew_q := pat1_scan_exchange_none (path.take (p + bl)) n3 (pad3 n) w q
      hn3l hn3d hplen hpdig hw hwd hold_q
    rw [hnewdef, he]
    exact hnew_q
  have hnew_scan2 : scanDown (fun q => pat2Parse (newPath.drop q)) newPath.length
      = some (p, (bl, (n, '.' :: w))) := by
    apply (scanDown_eq_some (fun q => pat2Parse (newPath.drop q)) newPath.length p
      (bl, (n, '.' :: w))).mpr
    refine ⟨by rw [hnew_len]; exact hple, ?_, ?_⟩
    · show pat2Parse (newPath.drop p) = _
      rw [hdrop_new_p, hnew_p, digitsToNat_pad3]
    · intro q hq1 hq2
      show pat2Parse (newPath.drop q) = none
      have hold_q : pat2Parse ((path.take (p + bl) ++ (n3 ++ '.' :: w)).drop q)
          = none := by
        rw [← hpath_base]
        exact hnone' q hq1 (by rw [← hnew_len]; exact hq2)
      have hnew_q := pat2_scan_exchange_none (path.take (p + bl)) n3 (pad3 n) w q
        hn3l hn3d hplen hpdig hw hwd hold_q
      rw [hnewdef, he]
      exact hnew_q
  have htake_new : newPath.take (p + bl) = path.take (p + bl) := by
    rw [hnewdef, List.take_append_of_le_length (le_of_eq hbase_len.symm),
      List.take_of_length_le (le_of_eq hbase_len)]
  unfold extract_url_parts
  rw [hsq]
  dsimp only
  rw [hnew_scan1]
  dsimp only
  rw [hnew_scan2]
  dsimp only
  rw [htake_new, he]

/-- Claim C8: for every seed URL accepted by `extract_url_parts` and every
index `n` in `[1, 999]`, regenerating the URL for `n` via `get_url` and
re-parsing it with the same parser recovers index `n` together with the
same base, extension and query string; the index is zero-padded to
exactly 3 digits. -/
theorem claim_C8_url_roundtrip (url : List Char) (parts : UrlParts) (n : Nat)
    (hp : extract_url_parts url = some parts) (h1 : 1 ≤ n) (h9 : n ≤ 999) :
    extract_url_parts (get_url parts n)
      = some ⟨parts.base, n, parts.ext, parts.query⟩ ∧ (pad3 n).length = 3 := by
  refine ⟨?_, pad3_length n h9⟩
  unfold extract_url_parts at hp
  split at hp
  · rename_i p bl nn e hscan1
    simp only [Option.some.injEq] at hp
    subst hp
    exact roundtrip_case1 url n p bl nn e h9 hscan1
  · rename_i hscan1
    split at hp
    · rename_i p bl nn e hscan2
      simp only [Option.some.injEq] at hp
      subst hp
      exact roundtrip_case2 url n p bl nn e h9 hscan1 hscan2
    · exact absurd hp (by simp)

/-- Witness for C8 at a concrete seed URL and index 7. -/
theorem claim_C8_witness :
    extract_url_parts
        (get_url ⟨("https://x.zz/takeout-20251207T071725Z-3-").data, 1,
          (".zip").data, ("a=b").data⟩ 7)
      = some ⟨("https://x.zz/takeout-20251207T071725Z-3-").data, 7,
          (".zip").data, ("a=b").data⟩ ∧ (pad3 7).length = 3 :=
  claim_C8_url_roundtrip
    ("https://x.zz/takeout-20251207T071725Z-3-001.zip?a=b").data
    ⟨("https://x.zz/takeout-20251207T071725Z-3-").data, 1, (".zip").data,
      ("a=b").data⟩ 7 (by rfl) (by decide) (by decide)

end Takeout
